import Mathlib

/-!
Shallow embedding of the hybrid retrieval fusion engine of the `neumann`
repository (files `src/chunker.py` and `src/indexer.py`), together with
theorems settling the specification claims about it.

Modelling conventions:
* Python strings are modelled as `List Char` (sequences of Unicode scalar
  values); `len(s)` is `List.length`, `s.encode("utf-8")` is `strBytes`.
* Python floats are modelled exactly: scores that involve only field
  operations are `ℚ`; the lexical score, which uses `math.log1p`, is `ℝ`.
* External collaborators (the Chroma vector store, the compiled `re` module,
  the embedding function, `load_page_uris` file IO) are injected as explicit
  function arguments, mirroring how the source treats them as services.
* Python exceptions are modelled with `Except`/`Option`: `ChunkErr.valueError`
  is `ValueError`, `ChunkErr.decodeError` is the `UnicodeDecodeError` that
  `bytes.decode("utf-8", errors="strict")` can raise; a `none` result of
  `splitGo` models a run of `_split_line_by_bytes` that raises or loops.
-/

/-- Python strings as lists of Unicode scalar values. -/
abbrev Str := List Char

instance {ε α : Type} [DecidableEq ε] [DecidableEq α] : DecidableEq (Except ε α) := fun a b =>
  match a, b with
  | .ok x, .ok y =>
    if h : x = y then isTrue (by rw [h]) else isFalse (by intro hh; cases hh; exact h rfl)
  | .error e, .error f =>
    if h : e = f then isTrue (by rw [h]) else isFalse (by intro hh; cases hh; exact h rfl)
  | .ok _, .error _ => isFalse (by intro hh; cases hh)
  | .error _, .ok _ => isFalse (by intro hh; cases hh)

/-! ## UTF-8 encoding and strict decoding (`str.encode` / `bytes.decode`) -/

/-- UTF-8 encoding of one Unicode scalar value, as byte values below 256. -/
def charBytes (c : Char) : List ℕ :=
  let n := c.toNat
  if n < 0x80 then [n]
  else if n < 0x800 then [0xC0 + n / 64, 0x80 + n % 64]
  else if n < 0x10000 then [0xE0 + n / 4096, 0x80 + n / 64 % 64, 0x80 + n % 64]
  else [0xF0 + n / 262144, 0x80 + n / 4096 % 64, 0x80 + n / 64 % 64, 0x80 + n % 64]

/-- UTF-8 encoding of a string: Python `s.encode("utf-8")`. -/
def strBytes (s : Str) : List ℕ := (s.map charBytes).flatten

/-- Length in bytes of the UTF-8 encoding: Python `len(s.encode("utf-8"))`. -/
def byteLen (s : Str) : ℕ := (strBytes s).length

/-- Continuation-byte test from `_split_line_by_bytes`:
`(b & 0b11000000) == 0b10000000`. -/
def utf8IsCont (b : ℕ) : Bool := b &&& 0xC0 == 0x80

/-- Decode one scalar value from the front of a byte list, strict UTF-8:
rejects stray continuation bytes, truncated sequences, overlong forms,
surrogates and out-of-range code points, exactly as CPython's strict
`bytes.decode("utf-8")` does. -/
def decodeOne (l : List ℕ) : Option (Char × List ℕ) :=
  match l with
  | [] => none
  | b0 :: rest =>
    if b0 < 0x80 then some (Char.ofNat b0, rest)
    else if b0 < 0xC2 then none
    else if b0 < 0xE0 then
      match rest with
      | b1 :: rest2 =>
        if utf8IsCont b1 = true then
          some (Char.ofNat ((b0 - 0xC0) * 64 + (b1 - 0x80)), rest2)
        else none
      | [] => none
    else if b0 < 0xF0 then
      match rest with
      | b1 :: b2 :: rest3 =>
        let n := (b0 - 0xE0) * 4096 + (b1 - 0x80) * 64 + (b2 - 0x80)
        if utf8IsCont b1 = true ∧ utf8IsCont b2 = true ∧ 0x800 ≤ n ∧
            (n < 0xD800 ∨ 0xE000 ≤ n) then
          some (Char.ofNat n, rest3)
        else none
      | _ => none
    else if b0 < 0xF5 then
      match rest with
      | b1 :: b2 :: b3 :: rest4 =>
        let n := (b0 - 0xF0) * 262144 + (b1 - 0x80) * 4096 + (b2 - 0x80) * 64 + (b3 - 0x80)
        if utf8IsCont b1 = true ∧ utf8IsCont b2 = true ∧ utf8IsCont b3 = true ∧
            0x10000 ≤ n ∧ n < 0x110000 then
          some (Char.ofNat n, rest4)
        else none
      | _ => none
    else none

/-- Fuelled strict UTF-8 decoding loop (fuel bounds the number of decoded
characters; `utf8Decode` supplies enough fuel for any input). -/
def utf8DecodeGo : ℕ → List ℕ → Option Str
  | _, [] => some []
  | 0, _ :: _ => none
  | fuel + 1, l =>
    match decodeOne l with
    | none => none
    | some (c, rest) => (utf8DecodeGo fuel rest).map (fun cs => c :: cs)

/-- Strict UTF-8 decoding: Python `b.decode("utf-8", errors="strict")`,
`none` modelling `UnicodeDecodeError`. -/
def utf8Decode (l : List ℕ) : Option Str := utf8DecodeGo l.length l

/-! ## Chunker (`src/chunker.py`) -/

/-- Chroma Cloud maximum document size in bytes (`CHROMA_CLOUD_DOC_MAX_BYTES`). -/
def CHROMA_CLOUD_DOC_MAX_BYTES : ℕ := 16384

/-- Errors of `chunk_file_by_lines`: parameter validation (`ValueError`)
and the strict-decode failure (`UnicodeDecodeError`) reachable through
`_split_line_by_bytes`. -/
inductive ChunkErr where
  | valueError (msg : String)
  | decodeError
deriving DecidableEq

/-- Chunk record produced by `chunk_file_by_lines` (the dict with keys
`text`, `line_start`, `line_end`, `page_uris`). -/
structure Chunk where
  text : Str
  line_start : ℕ
  line_end : ℕ
  page_uris : List String
deriving DecidableEq

/-- Line-break characters recognised by Python `str.splitlines`. -/
def isLineBreakChar (c : Char) : Bool :=
  c.toNat == 10 || c.toNat == 13 || c.toNat == 11 || c.toNat == 12 ||
  c.toNat == 28 || c.toNat == 29 || c.toNat == 30 || c.toNat == 133 ||
  c.toNat == 8232 || c.toNat == 8233

/-- Accumulator loop for `splitlines`: the accumulator holds the current
line reversed, and the fuel (one unit per remaining character, supplied by
`splitlines`) keeps the recursion structural. -/
def splitlinesGo : ℕ → Str → Str → List Str
  | _, [], acc => if acc = [] then [] else [acc.reverse]
  | 0, _ :: _, _ => []
  | fuel + 1, c :: rest, acc =>
    if c = '\r' then
      match rest with
      | d :: rest2 =>
        if d = '\n' then (acc.reverse ++ ['\r', '\n']) :: splitlinesGo fuel rest2 []
        else (acc.reverse ++ ['\r']) :: splitlinesGo fuel rest []
      | [] => [acc.reverse ++ ['\r']]
    else if isLineBreakChar c then (acc.reverse ++ [c]) :: splitlinesGo fuel rest []
    else splitlinesGo fuel rest (c :: acc)

/-- Python `text.splitlines(keepends=True)`. -/
def splitlines (s : Str) : List Str := splitlinesGo s.length s []

/-- Backoff loop of `_split_line_by_bytes`, relative to the remaining byte
list `r`: starting from a candidate cut `j`, decrement while `j > 0` and the
byte before the cut, `r[j-1]`, is a UTF-8 continuation byte. -/
def backoffJ (r : List ℕ) : ℕ → ℕ
  | 0 => 0
  | j + 1 => if utf8IsCont (r.getD j 0) = true then backoffJ r j else j + 1

/-- Main loop of `_split_line_by_bytes` over the remaining bytes `r`:
cut `j = min(len(r), maxBytes)` backed off by `backoffJ`, strict-decode the
cut prefix, recurse on the rest.  `none` models a `UnicodeDecodeError` (or
the infinite loop reachable when the cut makes no progress); the fuel is
`len(bytes)`, enough for every terminating run. -/
def splitGo (maxBytes : ℕ) : ℕ → List ℕ → Option (List Str)
  | _, [] => some []
  | 0, _ :: _ => none
  | fuel + 1, r =>
    let j := backoffJ r (min r.length maxBytes)
    match utf8Decode (r.take j) with
    | none => none
    | some seg => (splitGo maxBytes fuel (r.drop j)).map (fun segs => seg :: segs)

/-- Model of `_split_line_by_bytes(s, max_bytes)`. -/
def split_line_by_bytes (s : Str) (maxBytes : ℕ) : Option (List Str) :=
  splitGo maxBytes (strBytes s).length (strBytes s)

/-- Python slice `lines[start:fin]` joined: `"".join(lines[start:fin])`. -/
def joinRange (lines : List Str) (start fin : ℕ) : Str :=
  ((lines.drop start).take (fin - start)).flatten

/-- Greedy shrink loop of `chunk_file_by_lines`: decrement `end` while the
joined window exceeds the byte limit and more than one line remains. -/
def shrinkEnd (lines : List Str) (start : ℕ) : ℕ → ℕ
  | 0 => 0
  | e + 1 =>
    if CHROMA_CLOUD_DOC_MAX_BYTES < byteLen (joinRange lines start (e + 1)) ∧ start + 1 < e + 1 then
      shrinkEnd lines start e
    else e + 1

/-- Main `while start < n` loop of `chunk_file_by_lines`.  The fuel bounds
the number of iterations; every iteration advances `start` by at least one,
so fuel `lines.length` (supplied by `chunk_file_by_lines`) is enough and the
fuel-exhausted branch is unreachable from the entry point. -/
def chunkLoopGo (lines : List Str) (perChunk overlap : ℕ) (pageUris : List String) :
    ℕ → ℕ → Except ChunkErr (List Chunk)
  | 0, _ => .ok []
  | fuel + 1, start =>
    if lines.length ≤ start then .ok []
    else
      let e := shrinkEnd lines start (min lines.length (start + perChunk))
      let chunkText := joinRange lines start e
      if CHROMA_CLOUD_DOC_MAX_BYTES < byteLen chunkText ∧ e = start + 1 then
        match split_line_by_bytes (lines.getD start []) CHROMA_CLOUD_DOC_MAX_BYTES with
        | none => .error .decodeError
        | some segs =>
          match chunkLoopGo lines perChunk overlap pageUris fuel (start + 1) with
          | .error err => .error err
          | .ok rest =>
            .ok (segs.map (fun seg => ⟨seg, start + 1, start + 1, pageUris⟩) ++ rest)
      else
        let c : Chunk := ⟨chunkText, start + 1, e, pageUris⟩
        if lines.length ≤ e then .ok [c]
        else
          let step := max 1 (e - start - overlap)
          match chunkLoopGo lines perChunk overlap pageUris fuel (start + step) with
          | .error err => .error err
          | .ok rest => .ok (c :: rest)

/-- Model of `chunk_file_by_lines(text, pages_jsonl_path, per_chunk, overlap)`.
The page-URI manifest loading (`load_page_uris`, file IO that degrades to
`[]`) is a collaborator, so the already-loaded list is a parameter. -/
def chunk_file_by_lines (text : Str) (pageUris : List String) (perChunk overlap : ℤ) :
    Except ChunkErr (List Chunk) :=
  if perChunk ≤ 0 then .error (.valueError "per_chunk must be positive")
  else if overlap < 0 then .error (.valueError "overlap must be non-negative")
  else if overlap ≥ perChunk then .error (.valueError "overlap must be less than per_chunk")
  else
    let lines := splitlines text
    if lines.length = 0 then .ok []
    else chunkLoopGo lines perChunk.toNat overlap.toNat pageUris lines.length 0

/-- Python `s.strip()` (whitespace at the `Char.isWhitespace` level). -/
def pyStrip (s : Str) : Str :=
  ((s.dropWhile Char.isWhitespace).reverse.dropWhile Char.isWhitespace).reverse

/-! ## Semantic score transform (`_distance_to_score`, `src/indexer.py`) -/

/-- Model of `_distance_to_score(d)`: `0.0` for `None`, else `1/(1+max(d,0))`. -/
def distance_to_score (d : Option ℚ) : ℚ :=
  match d with
  | none => 0
  | some d => 1 / (1 + max d 0)

/-! ## Result fuser (`hybrid_search`, `src/indexer.py`) -/

/-- Channel result record as consumed by the fusion step of `hybrid_search`
(the presentational `why` and normalized `metadata` fields, which no claim
references, are omitted). -/
structure ChanRes where
  doc_id : String
  score : ℚ
  source_path : Option String
  page_uris : List String
  line_start : Option ℤ
  line_end : Option ℤ
deriving DecidableEq

/-- Fused result record of `hybrid_search` (`why` omitted, as above). -/
structure FusedRes where
  doc_id : String
  score : ℚ
  sem_score : ℚ
  lex_score : ℚ
  rrf_score : ℚ
  source_path : Option String
  page_uris : List String
  line_start : Option ℤ
  line_end : Option ℤ
deriving DecidableEq

/-- Model of `_rrf_component(rank, k)`: `0.0` for a missing rank, else
`1/(k + max(rank, 0) + 1)`. -/
def rrf_component (rank : Option ℕ) (k : ℕ) : ℚ :=
  match rank with
  | none => 0
  | some r => 1 / ((k : ℚ) + max (r : ℚ) 0 + 1)

/-- Accumulator loop for `_merge_unique_ordered`: skip empty strings and
previously seen ones. -/
def mergeUniqueGo : List String → List String → List String
  | [], _ => []
  | u :: rest, seen =>
    if u = "" then mergeUniqueGo rest seen
    else if u ∈ seen then mergeUniqueGo rest seen
    else u :: mergeUniqueGo rest (u :: seen)

/-- Model of `_merge_unique_ordered(a, b)`. -/
def merge_unique_ordered (a b : List String) : List String := mergeUniqueGo (a ++ b) []

/-- First-occurrence deduplication, used to model iteration over the id set
`set(sem_by_doc) | set(lex_by_doc)` (the Python set iteration order is
unspecified; insertion order is one admissible order, and every property
proved about the fused output is insensitive to this choice because the
output is sorted with a stable sort on the same key for any order). -/
def dedupGo : List String → List String → List String
  | [], _ => []
  | x :: xs, seen => if x ∈ seen then dedupGo xs seen else x :: dedupGo xs (x :: seen)

/-- Python truthiness fallback `a or b` on numbers (`0.0` is falsy). -/
def pyOrQ (a b : ℚ) : ℚ := if a = 0 then b else a

/-- Python truthiness fallback `a or b` on optional strings (`None` and `""`
are falsy). -/
def pyOrStr (a b : Option String) : Option String :=
  match a with
  | some s => if s = "" then b else some s
  | none => b

/-- Python truthiness fallback `a or b` on optional integers (`None` and `0`
are falsy). -/
def pyOrInt (a b : Option ℤ) : Option ℤ :=
  match a with
  | some v => if v = 0 then b else some v
  | none => b

/-- Body of the fusion loop of `hybrid_search` for one document id of the
union: rank maps keep the first occurrence per id within each channel
(`find?`/`findIdx?`), the combined score is the weighted sum when the id is
in both channels and the Python `sem_score or lex_score` fallback otherwise,
and auxiliary fields are merged preferring the lexical channel. -/
def fuseEntry (semResults lexResults : List ChanRes) (wSemantic wLexical : ℚ)
    (did : String) : FusedRes :=
  let semMatch := semResults.find? (fun r => r.doc_id = did)
  let lexMatch := lexResults.find? (fun r => r.doc_id = did)
  let semRank := semResults.findIdx? (fun r => r.doc_id = did)
  let lexRank := lexResults.findIdx? (fun r => r.doc_id = did)
  let fusedRrf := rrf_component semRank 60 + rrf_component lexRank 60
  let semScore := match semMatch with | some r => r.score | none => 0
  let lexScore := match lexMatch with | some r => r.score | none => 0
  let combined :=
    if semMatch.isSome ∧ lexMatch.isSome then wSemantic * semScore + wLexical * lexScore
    else pyOrQ semScore lexScore
  let sourcePath :=
    pyOrStr (match lexMatch with | some r => r.source_path | none => none)
      (match semMatch with | some r => r.source_path | none => none)
  let pageUris :=
    merge_unique_ordered (match lexMatch with | some r => r.page_uris | none => [])
      (match semMatch with | some r => r.page_uris | none => [])
  let lineStart :=
    pyOrInt (match lexMatch with | some r => r.line_start | none => none)
      (match semMatch with | some r => r.line_start | none => none)
  let lineEnd :=
    pyOrInt (match lexMatch with | some r => r.line_end | none => none)
      (match semMatch with | some r => r.line_end | none => none)
  ⟨did, combined, semScore, lexScore, fusedRrf, sourcePath, pageUris, lineStart, lineEnd⟩

/-- Sort order of the fused list: Python
`fused.sort(key=lambda r: (r["score"], r["rrf_score"]), reverse=True)`, a
stable descending lexicographic sort; `fusedBefore a b` states that `a` may
come before `b`. -/
def fusedBefore (a b : FusedRes) : Prop :=
  b.score < a.score ∨ (b.score = a.score ∧ b.rrf_score ≤ a.rrf_score)

instance : DecidableRel fusedBefore := fun a b => by
  unfold fusedBefore; exact inferInstance

instance : IsTotal FusedRes fusedBefore :=
  ⟨fun a b => by unfold fusedBefore; rcases lt_trichotomy a.score b.score with h | h | h
                 · exact Or.inr (Or.inl h)
                 · rcases le_total a.rrf_score b.rrf_score with h2 | h2
                   · exact Or.inr (Or.inr ⟨h, h2⟩)
                   · exact Or.inl (Or.inr ⟨h.symm, h2⟩)
                 · exact Or.inl (Or.inl h)⟩

instance : IsTrans FusedRes fusedBefore :=
  ⟨fun a b c hab hbc => by
    unfold fusedBefore at *
    rcases hab with h1 | ⟨h1, h1'⟩ <;> rcases hbc with h2 | ⟨h2, h2'⟩
    · exact Or.inl (h2.trans h1)
    · exact Or.inl (h2 ▸ h1)
    · exact Or.inl (h1 ▸ h2)
    · exact Or.inr ⟨h2.trans h1, h2'.trans h1'⟩⟩

/-- Model of `hybrid_search`.  The two retrieval channels are external
collaborators here (they need the vector store and the embedding function),
injected as `semChannel`/`lexChannel`; the guard logic, the per-id fusion and
the final ordering are modelled from the source. -/
def hybrid_search (semChannel : Str → ℤ → List ChanRes)
    (lexChannel : List String → List String → Option String → ℤ → List ChanRes)
    (query : Str) (k : ℤ) (mustTerms regexes : List String)
    (pathLike : Option String) (wSemantic wLexical : ℚ) : List FusedRes :=
  let q := pyStrip query
  if k ≤ 0 then []
  else
    let runSemantic : Bool := !q.isEmpty
    let runLexical : Bool :=
      !mustTerms.isEmpty || !regexes.isEmpty ||
        (match pathLike with | some s => !(s == "") | none => false)
    if !runSemantic && !runLexical then []
    else
      let semResults := if runSemantic then semChannel q k else []
      let lexResults := if runLexical then lexChannel mustTerms regexes pathLike k else []
      let ids := dedupGo (semResults.map (fun r => r.doc_id) ++ lexResults.map (fun r => r.doc_id)) []
      let fused := ids.map (fuseEntry semResults lexResults wSemantic wLexical)
      (List.insertionSort fusedBefore fused).take k.toNat

/-! ## Lexical scorer and lexical search (`src/indexer.py`) -/

/-- Lexical scoring weights and caps (module constants of `src/indexer.py`). -/
def LEX_W_TERM : ℚ := 1

/-- Weight for regex matches. -/
def LEX_W_REGEX : ℚ := 1.5

/-- Cap per term. -/
def LEX_TERM_CAP : ℕ := 3

/-- Cap per regex. -/
def LEX_REGEX_CAP : ℕ := 3

/-- Strength of the mild length penalty. -/
noncomputable def LEX_LENGTH_ALPHA : ℝ := 0.2

/-- Baseline score when only `path_like` matches. -/
noncomputable def LEX_PATH_ONLY_BASELINE : ℝ := 0.25

/-- Fetch-limit multiplier under path filtering. -/
def LEX_PATH_FETCH_MULTIPLIER : ℤ := 10

/-- Python `s.lower()` (modelled at the basic-latin level of `Char.toLower`;
the claims exercise it on ASCII material only). -/
def lowerStr (s : Str) : Str := s.map Char.toLower

/-- Scanning loop of Python `haystack.count(needle)` for a non-empty needle:
left-to-right, non-overlapping; `skip` counts positions still covered by the
previous match. -/
def countSubGo (pat : Str) : Str → ℕ → ℕ
  | [], _ => 0
  | _ :: rest, skip + 1 => countSubGo pat rest skip
  | c :: rest, 0 =>
    if pat.isPrefixOf (c :: rest) then 1 + countSubGo pat rest (pat.length - 1)
    else countSubGo pat rest 0

/-- Python `haystack.count(needle)` (an empty needle counts `len+1` slots). -/
def countSub (hay pat : Str) : ℕ :=
  if pat = [] then hay.length + 1 else countSubGo pat hay 0

/-- Abstract compiled-regex engine: `valid r` models whether `re.compile(r)`
succeeds, `count r doc` the number of non-zero-length `finditer` matches of
the pattern compiled with `IGNORECASE | MULTILINE`.  Both are collaborators
(the `re` module); the count is a function of the raw pattern string because
compilation is deterministic. -/
structure RegexEngine where
  valid : Str → Bool
  count : Str → Str → ℕ

/-- Metrics record of `_compute_lexical_score` (`LexicalMetrics`); the
`length_pen` field, a float no claim references, is computed inline in
`compute_lexical_score` instead of being stored. -/
structure LexMetrics where
  term_hits : ℕ
  regex_hits : ℕ
  doc_len : ℕ
  per_term : List (Str × ℕ)
  per_regex : List (Str × ℕ)
  raw : ℚ
  max_raw : ℚ

/-- Counting part of `_compute_lexical_score`: per-term case-insensitive
non-overlapping substring counts, per-regex match counts, caps, weighted raw
score and its theoretical maximum. -/
def lexMetricsCore (eng : RegexEngine) (docStr : Str) (terms pats : List Str) : LexMetrics :=
  let docLower := lowerStr docStr
  let termHitsList := terms.map (fun t => countSub docLower (lowerStr t))
  let perTerm := terms.map (fun t => (t, countSub docLower (lowerStr t)))
  let regexHitsList := pats.map (fun p => eng.count p docStr)
  let perRegex := pats.map (fun p => (p, eng.count p docStr))
  let termCapped := termHitsList.map (fun h => min h LEX_TERM_CAP)
  let regexCapped := regexHitsList.map (fun h => min h LEX_REGEX_CAP)
  let raw : ℚ := LEX_W_TERM * (termCapped.sum : ℚ) + LEX_W_REGEX * (regexCapped.sum : ℚ)
  let maxRaw : ℚ :=
    LEX_W_TERM * ((terms.length * LEX_TERM_CAP : ℕ) : ℚ) +
      LEX_W_REGEX * ((pats.length * LEX_REGEX_CAP : ℕ) : ℚ)
  ⟨termHitsList.sum, regexHitsList.sum, docStr.length, perTerm, perRegex, raw, maxRaw⟩

/-- Model of `_compute_lexical_score(doc_str, terms, compiled_patterns)`:
returns the clamped normalized score with the mild length penalty
`1 + 0.2 * log1p(len(doc)/1000)`, and the metrics record; the `max_raw <= 0`
branch returns `0.0` with zeroed metrics as in the source. -/
noncomputable def compute_lexical_score (eng : RegexEngine) (docStr : Str)
    (terms pats : List Str) : ℝ × LexMetrics :=
  let m := lexMetricsCore eng docStr terms pats
  if m.max_raw ≤ 0 then
    (0, ⟨0, 0, docStr.length, [], [], 0, 0⟩)
  else
    let lengthPen : ℝ := 1 + LEX_LENGTH_ALPHA * Real.log (1 + (docStr.length : ℝ) / 1000)
    let score : ℝ := ((m.raw : ℝ) / (m.max_raw : ℝ)) / lengthPen
    (max 0 (min score 1), m)

/-- Last-wins association lookup, modelling Python dict construction by
sequential insertion followed by `d.get(k)`. -/
def dictGet (l : List (Str × ℕ)) (key : Str) : Option ℕ :=
  l.foldl (fun acc p => if p.1 = key then some p.2 else acc) none

/-- Model of `_filters_satisfied(metrics, terms, compiled)`: AND over terms,
OR over regex patterns, vacuously true for an empty group. -/
def filters_satisfied (m : LexMetrics) (terms pats : List Str) : Bool :=
  let termsOk := if terms.isEmpty then true
    else terms.all (fun t => decide (0 < (dictGet m.per_term t).getD 0))
  let regexOk := if pats.isEmpty then true
    else pats.any (fun p => decide (0 < (dictGet m.per_regex p).getD 0))
  termsOk && regexOk

/-- Accumulator loop for `_sanitize_list`. -/
def sanitizeGo : List Str → List Str → List Str
  | [], _ => []
  | s :: rest, seen =>
    if s = [] then sanitizeGo rest seen
    else
      let t := pyStrip s
      if t = [] ∨ t ∈ seen then sanitizeGo rest seen
      else t :: sanitizeGo rest (t :: seen)

/-- Model of `_sanitize_list(xs)`: strip, drop empties, deduplicate keeping
order. -/
def sanitize_list (xs : List Str) : List Str := sanitizeGo xs []

/-- Shape of the `where_document` filter built for the Chroma `get` call. -/
inductive WhereDoc where
  | containsTerm (t : Str)
  | regexPat (r : Str)
  | andGroup (l : List WhereDoc)
  | orGroup (l : List WhereDoc)

/-- Model of `_build_where_document(must_terms, regexes)`. -/
def build_where_document (mustTerms regexes : List Str) : Option WhereDoc :=
  let terms := sanitize_list mustTerms
  let regs := sanitize_list regexes
  let termsGroup : Option WhereDoc :=
    if terms ≠ [] ∧ terms.length = 1 then some (.containsTerm (terms.getD 0 []))
    else if terms ≠ [] then some (.andGroup (terms.map WhereDoc.containsTerm))
    else none
  let regexGroup : Option WhereDoc :=
    if regs ≠ [] ∧ regs.length = 1 then some (.regexPat (regs.getD 0 []))
    else if regs ≠ [] then some (.orGroup (regs.map WhereDoc.regexPat))
    else none
  match termsGroup, regexGroup with
  | some t, some r => some (.andGroup [t, r])
  | some t, none => some t
  | none, r => r

/-- Candidate row of the Chroma `get` response, as consumed by the loop of
`lexical_search` (parallel `ids`/`documents`/`metadatas` lists zipped into
records; the normalized list-valued metadata fields, which no claim
references, are omitted).  `source_path = none` models both an absent and a
non-string metadata value. -/
structure LexCand where
  id : Str
  doc : Option Str
  meta_doc_id : Option Str
  source_path : Option Str
  line_start : Option ℤ
  line_end : Option ℤ

/-- Result record of `lexical_search` (presentational `why`, `page_uris` and
`metadata` fields omitted). -/
structure LexResult where
  doc_id : Str
  source_path : Option Str
  score : ℝ
  line_start : Option ℤ
  line_end : Option ℤ

/-- Result record of `lexical_search` before the ephemeral tie-breaker keys
`_cats`, `_raw_hits`, `_doc_len` are stripped. -/
structure LexFull where
  res : LexResult
  cats : ℕ
  raw_hits : ℕ
  doc_len : ℕ

/-- Body of the candidate loop of `lexical_search`: client-side path
filtering, scoring, filter-satisfaction enforcement, path-only baseline and
tie-breaker keys; `none` models `continue` (the candidate is skipped). -/
noncomputable def lexBuildResult (eng : RegexEngine) (terms pats : List Str)
    (pl : Option Str) (cand : LexCand) : Option LexFull :=
  let plTruthy : Bool := match pl with | some s => !s.isEmpty | none => false
  let pathMatched : Bool :=
    match pl, cand.source_path with
    | some plv, some sp =>
      if plv.isEmpty then false else decide (lowerStr plv <:+: lowerStr sp)
    | _, _ => false
  if plTruthy = true ∧ cand.source_path.isSome ∧ pathMatched = false then none
  else
    let docStr := cand.doc.getD []
    let sm := compute_lexical_score eng docStr terms pats
    if (terms ≠ [] ∨ pats ≠ []) ∧ filters_satisfied sm.2 terms pats = false then none
    else
      let lexScore :=
        if pathMatched = true ∧ terms = [] ∧ pats = [] then
          if sm.1 < LEX_PATH_ONLY_BASELINE then LEX_PATH_ONLY_BASELINE else sm.1
        else sm.1
      let docId := match cand.meta_doc_id with
        | some d => if d = [] then cand.id else d
        | none => cand.id
      let anyTerm := sm.2.per_term.any (fun p => decide (0 < p.2))
      let anyRegex := sm.2.per_regex.any (fun p => decide (0 < p.2))
      let cats := (if pathMatched then 1 else 0) + (if anyTerm then 1 else 0) +
        (if anyRegex then 1 else 0)
      some ⟨⟨docId, cand.source_path, lexScore, cand.line_start, cand.line_end⟩,
        cats, sm.2.term_hits + sm.2.regex_hits, sm.2.doc_len⟩

/-- Fetch step of `lexical_search`: the primary Chroma `get` with the
`where_document` filter, and the broad client-side fallback fetch issued when
the filtered fetch returns no ids.  The store is the collaborator `get`. -/
def lexicalFetch (get : Option WhereDoc → ℤ → List LexCand) (terms pats : List Str)
    (pl : Option Str) (k : ℤ) : List LexCand :=
  let whereDoc := build_where_document terms pats
  let fetchLimit :=
    if (match pl with | some s => !s.isEmpty | none => false) then k * LEX_PATH_FETCH_MULTIPLIER
    else k
  let res := get whereDoc fetchLimit
  if res.isEmpty ∧ whereDoc.isSome then get none (min 5000 (fetchLimit * 10)) else res

/-- Sort order of `lexical_search` results: Python
`results.sort(key=lambda r: (score, cats, raw_hits, -doc_len), reverse=True)`. -/
def lexBefore (a b : LexFull) : Prop :=
  b.res.score < a.res.score ∨
    (b.res.score = a.res.score ∧
      (b.cats < a.cats ∨
        (b.cats = a.cats ∧
          (b.raw_hits < a.raw_hits ∨
            (b.raw_hits = a.raw_hits ∧ a.doc_len ≤ b.doc_len)))))

noncomputable instance : DecidableRel lexBefore := fun _ _ => Classical.dec _

/-- Model of `lexical_search(must_terms, regexes, path_like, k)`. -/
noncomputable def lexical_search (eng : RegexEngine)
    (get : Option WhereDoc → ℤ → List LexCand) (mustTerms regexes : List Str)
    (pathLike : Option Str) (k : ℤ) : List LexResult :=
  if k ≤ 0 then []
  else
    let terms := sanitize_list mustTerms
    let rawRegs := sanitize_list regexes
    let pl : Option Str :=
      match pathLike with
      | none => none
      | some s => if s.isEmpty then none else some (pyStrip s)
    let pats := rawRegs.filter eng.valid
    if terms = [] ∧ pats = [] ∧ pl.getD [] = [] then []
    else
      let cands := lexicalFetch get terms pats pl k
      let fulls := cands.filterMap (lexBuildResult eng terms pats pl)
      ((List.insertionSort lexBefore fulls).take k.toNat).map LexFull.res

/-! ## Theorems: UTF-8 encoding/decoding -/

set_option maxRecDepth 4000 in
theorem utf8IsCont_iff_of_lt : ∀ b : ℕ, b < 256 → (utf8IsCont b = true ↔ 0x80 ≤ b ∧ b < 0xC0) := by
  decide

theorem char_valid_nat (c : Char) : Nat.isValidChar c.toNat := c.valid

theorem toNat_ofNat_of_valid {n : ℕ} (h : n.isValidChar) : (Char.ofNat n).toNat = n := by
  rw [Char.ofNat, dif_pos h]
  rfl

theorem charBytes_length_pos (c : Char) : 1 ≤ (charBytes c).length := by
  simp only [charBytes]
  split_ifs <;> simp

theorem charBytes_lt_256 (c : Char) : ∀ b ∈ charBytes c, b < 256 := by
  have hv := char_valid_nat c
  simp only [charBytes]
  rcases hv with hv | ⟨hv1, hv2⟩ <;>
    split_ifs with h1 h2 h3 <;> intro b hb <;>
      simp only [List.mem_cons, List.not_mem_nil, or_false] at hb <;>
      omega

theorem strBytes_nil : strBytes [] = [] := rfl

theorem strBytes_cons (c : Char) (s : Str) : strBytes (c :: s) = charBytes c ++ strBytes s := by
  simp [strBytes]

theorem strBytes_append (s t : Str) : strBytes (s ++ t) = strBytes s ++ strBytes t := by
  simp [strBytes]

theorem strBytes_lt_256 (s : Str) : ∀ b ∈ strBytes s, b < 256 := by
  induction s with
  | nil => simp [strBytes_nil]
  | cons c s ih =>
    rw [strBytes_cons]
    intro b hb
    rcases List.mem_append.mp hb with hb | hb
    · exact charBytes_lt_256 c b hb
    · exact ih b hb

theorem byteLen_cons (c : Char) (s : Str) :
    byteLen (c :: s) = (charBytes c).length + byteLen s := by
  simp [byteLen, strBytes_cons]

theorem decodeOne_charBytes (c : Char) (bs : List ℕ) :
    decodeOne (charBytes c ++ bs) = some (c, bs) := by
  have hv := char_valid_nat c
  have hofn : Char.ofNat c.toNat = c := Char.ofNat_toNat c
  simp only [charBytes]
  by_cases h1 : c.toNat < 128
  · rw [if_pos h1]
    simp only [List.cons_append, List.nil_append, decodeOne]
    rw [if_pos h1, hofn]
  · rw [if_neg h1]
    by_cases h2 : c.toNat < 2048
    · rw [if_pos h2]
      simp only [List.cons_append, List.nil_append, decodeOne]
      have hb0a : ¬(192 + c.toNat / 64 < 128) := by omega
      have hb0b : ¬(192 + c.toNat / 64 < 194) := by omega
      have hb0c : 192 + c.toNat / 64 < 224 := by omega
      rw [if_neg hb0a, if_neg hb0b, if_pos hb0c]
      have hcont : utf8IsCont (128 + c.toNat % 64) = true := by
        rw [utf8IsCont_iff_of_lt _ (by omega)]; omega
      rw [if_pos hcont]
      have harg : (192 + c.toNat / 64 - 192) * 64 + (128 + c.toNat % 64 - 128) = c.toNat := by
        omega
      rw [harg, hofn]
    · rw [if_neg h2]
      by_cases h3 : c.toNat < 65536
      · rw [if_pos h3]
        simp only [List.cons_append, List.nil_append, decodeOne]
        have hb0a : ¬(224 + c.toNat / 4096 < 128) := by omega
        have hb0b : ¬(224 + c.toNat / 4096 < 194) := by omega
        have hb0c : ¬(224 + c.toNat / 4096 < 224) := by omega
        have hb0d : 224 + c.toNat / 4096 < 240 := by omega
        rw [if_neg hb0a, if_neg hb0b, if_neg hb0c, if_pos hb0d]
        have hcont1 : utf8IsCont (128 + c.toNat / 64 % 64) = true := by
          rw [utf8IsCont_iff_of_lt _ (by omega)]; omega
        have hcont2 : utf8IsCont (128 + c.toNat % 64) = true := by
          rw [utf8IsCont_iff_of_lt _ (by omega)]; omega
        have harg : (224 + c.toNat / 4096 - 224) * 4096 + (128 + c.toNat / 64 % 64 - 128) * 64 +
            (128 + c.toNat % 64 - 128) = c.toNat := by omega
        rw [if_pos ⟨hcont1, hcont2, by omega, by rcases hv with hv | hv <;> omega⟩]
        rw [harg, hofn]
      · rw [if_neg h3]
        have hlt : c.toNat < 1114112 := by rcases hv with hv | hv <;> omega
        simp only [List.cons_append, List.nil_append, decodeOne]
        have hb0a : ¬(240 + c.toNat / 262144 < 128) := by omega
        have hb0b : ¬(240 + c.toNat / 262144 < 194) := by omega
        have hb0c : ¬(240 + c.toNat / 262144 < 224) := by omega
        have hb0d : ¬(240 + c.toNat / 262144 < 240) := by omega
        have hb0e : 240 + c.toNat / 262144 < 245 := by omega
        rw [if_neg hb0a, if_neg hb0b, if_neg hb0c, if_neg hb0d, if_pos hb0e]
        have hcont1 : utf8IsCont (128 + c.toNat / 4096 % 64) = true := by
          rw [utf8IsCont_iff_of_lt _ (by omega)]; omega
        have hcont2 : utf8IsCont (128 + c.toNat / 64 % 64) = true := by
          rw [utf8IsCont_iff_of_lt _ (by omega)]; omega
        have hcont3 : utf8IsCont (128 + c.toNat % 64) = true := by
          rw [utf8IsCont_iff_of_lt _ (by omega)]; omega
        have harg : (240 + c.toNat / 262144 - 240) * 262144 +
            (128 + c.toNat / 4096 % 64 - 128) * 4096 +
            (128 + c.toNat / 64 % 64 - 128) * 64 + (128 + c.toNat % 64 - 128) = c.toNat := by
          omega
        rw [if_pos ⟨hcont1, hcont2, hcont3, by omega, by omega⟩]
        rw [harg, hofn]

theorem decodeOne_sound {l : List ℕ} {c : Char} {rest : List ℕ} (hl : ∀ b ∈ l, b < 256)
    (h : decodeOne l = some (c, rest)) : charBytes c ++ rest = l := by
  match l with
  | [] => simp [decodeOne] at h
  | b0 :: tail =>
    have hb0 : b0 < 256 := hl b0 (by simp)
    simp only [decodeOne] at h
    by_cases h1 : b0 < 128
    · rw [if_pos h1] at h
      simp only [Option.some.injEq, Prod.mk.injEq] at h
      obtain ⟨hc, hr⟩ := h
      subst hc; subst hr
      have htn : (Char.ofNat b0).toNat = b0 := toNat_ofNat_of_valid (Or.inl (by omega))
      simp only [charBytes, htn]
      rw [if_pos h1]
      simp
    · rw [if_neg h1] at h
      by_cases h2 : b0 < 194
      · rw [if_pos h2] at h; exact absurd h (by simp)
      · rw [if_neg h2] at h
        by_cases h3 : b0 < 224
        · rw [if_pos h3] at h
          match tail with
          | [] => simp at h
          | b1 :: tail2 =>
            have hb1 : b1 < 256 := hl b1 (by simp)
            dsimp only at h
            by_cases hc1 : utf8IsCont b1 = true
            · rw [if_pos hc1] at h
              simp only [Option.some.injEq, Prod.mk.injEq] at h
              obtain ⟨hc, hr⟩ := h
              subst hc; subst hr
              have hb1r := (utf8IsCont_iff_of_lt b1 hb1).mp hc1
              set m := (b0 - 192) * 64 + (b1 - 128) with hm
              have hm1 : ¬(m < 128) := by omega
              have hm2 : m < 2048 := by omega
              have htn : (Char.ofNat m).toNat = m := toNat_ofNat_of_valid (Or.inl (by omega))
              simp only [charBytes, htn]
              rw [if_neg hm1, if_pos hm2]
              have e1 : 192 + m / 64 = b0 := by omega
              have e2 : 128 + m % 64 = b1 := by omega
              rw [e1, e2]
              simp
            · rw [if_neg hc1] at h; exact absurd h (by simp)
        · rw [if_neg h3] at h
          by_cases h4 : b0 < 240
          · rw [if_pos h4] at h
            match tail with
            | [] => simp at h
            | [b1] => simp at h
            | b1 :: b2 :: tail3 =>
              have hb1 : b1 < 256 := hl b1 (by simp)
              have hb2 : b2 < 256 := hl b2 (by simp)
              dsimp only at h
              rw [ite_eq_iff] at h
              rcases h with ⟨⟨hcont1, hcont2, hge, hvr⟩, h⟩ | ⟨-, h⟩
              · simp only [Option.some.injEq, Prod.mk.injEq] at h
                obtain ⟨hc, hr⟩ := h
                subst hc; subst hr
                have hb1r := (utf8IsCont_iff_of_lt b1 hb1).mp hcont1
                have hb2r := (utf8IsCont_iff_of_lt b2 hb2).mp hcont2
                set m := (b0 - 224) * 4096 + (b1 - 128) * 64 + (b2 - 128) with hm
                have hm2 : m < 65536 := by omega
                have hvalid : Nat.isValidChar m := by
                  rcases hvr with hs | hs
                  · exact Or.inl hs
                  · exact Or.inr ⟨by omega, by omega⟩
                have htn : (Char.ofNat m).toNat = m := toNat_ofNat_of_valid hvalid
                simp only [charBytes, htn]
                rw [if_neg (by omega : ¬(m < 128)), if_neg (by omega : ¬(m < 2048)), if_pos hm2]
                have e1 : 224 + m / 4096 = b0 := by omega
                have e2 : 128 + m / 64 % 64 = b1 := by omega
                have e3 : 128 + m % 64 = b2 := by omega
                rw [e1, e2, e3]
                simp
              · exact absurd h (by simp)
          · rw [if_neg h4] at h
            by_cases h5 : b0 < 245
            · rw [if_pos h5] at h
              match tail with
              | [] => simp at h
              | [b1] => simp at h
              | [b1, b2] => simp at h
              | b1 :: b2 :: b3 :: tail4 =>
                have hb1 : b1 < 256 := hl b1 (by simp)
                have hb2 : b2 < 256 := hl b2 (by simp)
                have hb3 : b3 < 256 := hl b3 (by simp)
                dsimp only at h
                rw [ite_eq_iff] at h
                rcases h with ⟨⟨hcont1, hcont2, hcont3, hge, hlt⟩, h⟩ | ⟨-, h⟩
                · simp only [Option.some.injEq, Prod.mk.injEq] at h
                  obtain ⟨hc, hr⟩ := h
                  subst hc; subst hr
                  have hb1r := (utf8IsCont_iff_of_lt b1 hb1).mp hcont1
                  have hb2r := (utf8IsCont_iff_of_lt b2 hb2).mp hcont2
                  have hb3r := (utf8IsCont_iff_of_lt b3 hb3).mp hcont3
                  set m := (b0 - 240) * 262144 + (b1 - 128) * 4096 + (b2 - 128) * 64 + (b3 - 128)
                    with hm
                  have hvalid : Nat.isValidChar m := Or.inr ⟨by omega, by omega⟩
                  have htn : (Char.ofNat m).toNat = m := toNat_ofNat_of_valid hvalid
                  simp only [charBytes, htn]
                  rw [if_neg (by omega : ¬(m < 128)), if_neg (by omega : ¬(m < 2048)),
                    if_neg (by omega : ¬(m < 65536))]
                  have e1 : 240 + m / 262144 = b0 := by omega
                  have e2 : 128 + m / 4096 % 64 = b1 := by omega
                  have e3 : 128 + m / 64 % 64 = b2 := by omega
                  have e4 : 128 + m % 64 = b3 := by omega
                  rw [e1, e2, e3, e4]
                  simp
                · exact absurd h (by simp)
            · rw [if_neg h5] at h; exact absurd h (by simp)

theorem utf8DecodeGo_strBytes (s : Str) :
    ∀ fuel, byteLen s ≤ fuel → utf8DecodeGo fuel (strBytes s) = some s := by
  induction s with
  | nil => intro fuel _; cases fuel <;> rfl
  | cons c s ih =>
    intro fuel hf
    have hsplit : strBytes (c :: s) = charBytes c ++ strBytes s := strBytes_cons c s
    have hlen1 : 1 ≤ (charBytes c).length := charBytes_length_pos c
    have hlen : byteLen (c :: s) = (charBytes c).length + byteLen s := byteLen_cons c s
    match fuel with
    | 0 => omega
    | fuel + 1 =>
      rw [hsplit]
      match hcb : charBytes c with
      | [] => rw [hcb] at hlen1; simp at hlen1
      | b :: bs =>
        rw [List.cons_append]
        show (match decodeOne (b :: (bs ++ strBytes s)) with
          | none => none
          | some (c, rest) => (utf8DecodeGo fuel rest).map (fun cs => c :: cs)) = some (c :: s)
        rw [← List.cons_append, ← hcb, decodeOne_charBytes]
        dsimp only
        rw [ih fuel (by omega)]
        rfl

theorem utf8Decode_strBytes (s : Str) : utf8Decode (strBytes s) = some s :=
  utf8DecodeGo_strBytes s (strBytes s).length le_rfl

theorem utf8DecodeGo_sound :
    ∀ (fuel : ℕ) (l : List ℕ) (cs : Str), (∀ b ∈ l, b < 256) →
      utf8DecodeGo fuel l = some cs → strBytes cs = l := by
  intro fuel
  induction fuel with
  | zero =>
    intro l cs hl h
    match l with
    | [] => simp only [utf8DecodeGo, Option.some.injEq] at h; rw [← h]; rfl
    | _ :: _ => simp [utf8DecodeGo] at h
  | succ fuel ih =>
    intro l cs hl h
    match l with
    | [] => simp only [utf8DecodeGo, Option.some.injEq] at h; rw [← h]; rfl
    | b :: tail =>
      rw [show utf8DecodeGo (fuel + 1) (b :: tail) =
          (match decodeOne (b :: tail) with
            | none => none
            | some (c, rest) => (utf8DecodeGo fuel rest).map (fun cs => c :: cs)) from rfl] at h
      match hd : decodeOne (b :: tail) with
      | none => rw [hd] at h; simp at h
      | some (c, rest) =>
        rw [hd] at h
        simp only [Option.map_eq_some'] at h
        obtain ⟨cs', hgo, hcs⟩ := h
        have hsound := decodeOne_sound hl hd
        have hrest : ∀ x ∈ rest, x < 256 := by
          intro x hx
          exact hl x (by rw [← hsound]; exact List.mem_append.mpr (Or.inr hx))
        rw [← hcs, strBytes_cons, ih rest cs' hrest hgo, hsound]

theorem utf8Decode_sound {l : List ℕ} {cs : Str} (hl : ∀ b ∈ l, b < 256)
    (h : utf8Decode l = some cs) : strBytes cs = l :=
  utf8DecodeGo_sound l.length l cs hl h

/-! ## Theorems: byte-safe line splitting -/

theorem backoffJ_le (r : List ℕ) : ∀ j, backoffJ r j ≤ j := by
  intro j
  induction j with
  | zero => simp [backoffJ]
  | succ j ih =>
    rw [backoffJ]
    split
    · omega
    · omega

theorem splitGo_some_bytes (mb : ℕ) :
    ∀ (fuel : ℕ) (r : List ℕ) (segs : List Str), (∀ b ∈ r, b < 256) →
      splitGo mb fuel r = some segs → ∀ s ∈ segs, byteLen s ≤ mb := by
  intro fuel
  induction fuel with
  | zero =>
    intro r segs hr h
    match r with
    | [] => simp only [splitGo, Option.some.injEq] at h; rw [← h]; simp
    | _ :: _ => simp [splitGo] at h
  | succ fuel ih =>
    intro r segs hr h
    match r with
    | [] => simp only [splitGo, Option.some.injEq] at h; rw [← h]; simp
    | b :: tail =>
      rw [show splitGo mb (fuel + 1) (b :: tail) =
          (match utf8Decode ((b :: tail).take (backoffJ (b :: tail) (min (b :: tail).length mb))) with
            | none => none
            | some seg =>
              (splitGo mb fuel ((b :: tail).drop (backoffJ (b :: tail) (min (b :: tail).length mb)))).map
                (fun segs => seg :: segs)) from rfl] at h
      set j := backoffJ (b :: tail) (min (b :: tail).length mb) with hj
      match hd : utf8Decode ((b :: tail).take j) with
      | none => rw [hd] at h; simp at h
      | some seg =>
        rw [hd] at h
        simp only [Option.map_eq_some'] at h
        obtain ⟨segs', hgo, hsegs⟩ := h
        have htake : ∀ x ∈ (b :: tail).take j, x < 256 := fun x hx => hr x (List.mem_of_mem_take hx)
        have hdrop : ∀ x ∈ (b :: tail).drop j, x < 256 := fun x hx => hr x (List.mem_of_mem_drop hx)
        have hseg : strBytes seg = (b :: tail).take j := utf8Decode_sound htake hd
        intro s hs
        rw [← hsegs] at hs
        rcases List.mem_cons.mp hs with rfl | hs
        · have hjle : j ≤ mb := le_trans (backoffJ_le _ _) (min_le_right _ _)
          have : byteLen s = ((b :: tail).take j).length := by rw [byteLen, hseg]
          rw [this]
          calc ((b :: tail).take j).length ≤ j := by simp
            _ ≤ mb := hjle
        · exact ih _ segs' hdrop hgo s hs

theorem splitGo_ne_nil {mb fuel : ℕ} {b : ℕ} {tail : List ℕ} {segs : List Str}
    (h : splitGo mb (fuel + 1) (b :: tail) = some segs) : segs ≠ [] := by
  rw [show splitGo mb (fuel + 1) (b :: tail) =
      (match utf8Decode ((b :: tail).take (backoffJ (b :: tail) (min (b :: tail).length mb))) with
        | none => none
        | some seg =>
          (splitGo mb fuel ((b :: tail).drop (backoffJ (b :: tail) (min (b :: tail).length mb)))).map
            (fun segs => seg :: segs)) from rfl] at h
  match hd : utf8Decode ((b :: tail).take (backoffJ (b :: tail) (min (b :: tail).length mb))) with
  | none => rw [hd] at h; simp at h
  | some seg =>
    rw [hd] at h
    simp only [Option.map_eq_some'] at h
    obtain ⟨segs', _, hsegs⟩ := h
    rw [← hsegs]
    simp

/-! ## Theorems: chunker loop invariants -/

theorem shrinkEnd_le (lines : List Str) (start : ℕ) : ∀ e, shrinkEnd lines start e ≤ e := by
  intro e
  induction e with
  | zero => simp [shrinkEnd]
  | succ e ih =>
    rw [shrinkEnd]
    split
    · omega
    · omega

theorem shrinkEnd_ge (lines : List Str) (start : ℕ) :
    ∀ e, start + 1 ≤ e → start + 1 ≤ shrinkEnd lines start e := by
  intro e
  induction e with
  | zero => omega
  | succ e ih =>
    intro he
    rw [shrinkEnd]
    split
    · rename_i hcond
      exact ih (by omega)
    · omega

theorem shrinkEnd_post (lines : List Str) (start : ℕ) :
    ∀ e, ¬(CHROMA_CLOUD_DOC_MAX_BYTES < byteLen (joinRange lines start (shrinkEnd lines start e)) ∧
      start + 1 < shrinkEnd lines start e) := by
  intro e
  induction e with
  | zero =>
    rw [shrinkEnd]
    intro h
    omega
  | succ e ih =>
    rw [shrinkEnd]
    split
    · exact ih
    · rename_i hcond
      exact hcond

theorem joinRange_single (lines : List Str) (start : ℕ) (h : start < lines.length) :
    joinRange lines start (start + 1) = lines.getD start [] := by
  unfold joinRange
  have h1 : start + 1 - start = 1 := by omega
  rw [h1]
  match hd : lines.drop start with
  | [] =>
    have : lines.length ≤ start := by
      have := List.drop_eq_nil_iff.mp hd
      omega
    omega
  | l :: rest =>
    have hget : lines.getD start [] = l := by
      have h0 : (lines.drop start).getD 0 [] = lines.getD start [] := by
        simp [List.getD, List.getElem?_drop]
      rw [hd] at h0
      simpa using h0.symm
    rw [hget]
    simp

theorem chunkLoopGo_ok_bytes (lines : List Str) (pc ov : ℕ) (uris : List String) :
    ∀ (fuel start : ℕ) (chunks : List Chunk),
      chunkLoopGo lines pc ov uris fuel start = .ok chunks →
      ∀ c ∈ chunks, byteLen c.text ≤ CHROMA_CLOUD_DOC_MAX_BYTES := by
  intro fuel
  induction fuel with
  | zero =>
    intro start chunks h c hc
    simp only [chunkLoopGo, Except.ok.injEq] at h
    rw [← h] at hc
    simp at hc
  | succ fuel ih =>
    intro start chunks h c hc
    rw [chunkLoopGo] at h
    by_cases hstart : lines.length ≤ start
    · rw [if_pos hstart] at h
      simp only [Except.ok.injEq] at h
      rw [← h] at hc; simp at hc
    · rw [if_neg hstart] at h
      set e := shrinkEnd lines start (min lines.length (start + pc)) with he
      by_cases hcond : CHROMA_CLOUD_DOC_MAX_BYTES < byteLen (joinRange lines start e) ∧ e = start + 1
      · rw [if_pos hcond] at h
        match hsp : split_line_by_bytes (lines.getD start []) CHROMA_CLOUD_DOC_MAX_BYTES with
        | none => rw [hsp] at h; exact absurd h (by simp)
        | some segs =>
          rw [hsp] at h
          match hrec : chunkLoopGo lines pc ov uris fuel (start + 1) with
          | .error err => rw [hrec] at h; exact absurd h (by simp)
          | .ok rest =>
            rw [hrec] at h
            simp only [Except.ok.injEq] at h
            rw [← h] at hc
            rcases List.mem_append.mp hc with hc | hc
            · obtain ⟨seg, hsegmem, hcseg⟩ := List.mem_map.mp hc
              have hbytes := splitGo_some_bytes CHROMA_CLOUD_DOC_MAX_BYTES _ _ _
                (strBytes_lt_256 _) hsp seg hsegmem
              rw [← hcseg]
              exact hbytes
            · exact ih (start + 1) rest hrec c hc
      · rw [if_neg hcond] at h
        have hpost := shrinkEnd_post lines start (min lines.length (start + pc))
        rw [← he] at hpost
        have hbytes : byteLen (joinRange lines start e) ≤ CHROMA_CLOUD_DOC_MAX_BYTES := by
          rcases Nat.lt_or_ge start e with hse | hse
          · by_cases hb : CHROMA_CLOUD_DOC_MAX_BYTES < byteLen (joinRange lines start e)
            · exfalso
              rcases Nat.lt_or_ge (start + 1) e with hlt | hge2
              · exact hpost ⟨hb, hlt⟩
              · exact hcond ⟨hb, by omega⟩
            · omega
          · have hempty : joinRange lines start e = [] := by
              unfold joinRange
              have : e - start = 0 := by omega
              rw [this]
              simp
            rw [hempty]
            simp [byteLen, strBytes]
        by_cases hend : lines.length ≤ e
        · rw [if_pos hend] at h
          simp only [Except.ok.injEq] at h
          rw [← h] at hc
          simp only [List.mem_singleton] at hc
          rw [hc]
          exact hbytes
        · rw [if_neg hend] at h
          simp only [] at h
          match hrec : chunkLoopGo lines pc ov uris fuel (start + max 1 (e - start - ov)) with
          | .error err => rw [hrec] at h; exact absurd h (by simp)
          | .ok rest =>
            rw [hrec] at h
            simp only [Except.ok.injEq] at h
            rw [← h] at hc
            rcases List.mem_cons.mp hc with rfl | hc
            · exact hbytes
            · exact ih _ rest hrec c hc

theorem chunkLoopGo_ok_cover (lines : List Str) (pc ov : ℕ) (uris : List String) (hpc : 1 ≤ pc) :
    ∀ (fuel start : ℕ) (chunks : List Chunk), lines.length ≤ start + fuel →
      chunkLoopGo lines pc ov uris fuel start = .ok chunks →
      ∀ i, start + 1 ≤ i → i ≤ lines.length →
        ∃ c ∈ chunks, c.line_start ≤ i ∧ i ≤ c.line_end := by
  intro fuel
  induction fuel with
  | zero =>
    intro start chunks hfuel h i hi1 hi2
    omega
  | succ fuel ih =>
    intro start chunks hfuel h i hi1 hi2
    rw [chunkLoopGo] at h
    by_cases hstart : lines.length ≤ start
    · omega
    · rw [if_neg hstart] at h
      set e := shrinkEnd lines start (min lines.length (start + pc)) with he
      have hge : start + 1 ≤ e := by
        rw [he]
        exact shrinkEnd_ge lines start _ (by omega)
      have hle : e ≤ min lines.length (start + pc) := by
        rw [he]
        exact shrinkEnd_le lines start _
      by_cases hcond : CHROMA_CLOUD_DOC_MAX_BYTES < byteLen (joinRange lines start e) ∧ e = start + 1
      · rw [if_pos hcond] at h
        match hsp : split_line_by_bytes (lines.getD start []) CHROMA_CLOUD_DOC_MAX_BYTES with
        | none => rw [hsp] at h; exact absurd h (by simp)
        | some segs =>
          rw [hsp] at h
          match hrec : chunkLoopGo lines pc ov uris fuel (start + 1) with
          | .error err => rw [hrec] at h; exact absurd h (by simp)
          | .ok rest =>
            rw [hrec] at h
            simp only [Except.ok.injEq] at h
            rcases Nat.lt_or_ge (start + 1) i with hgt | heq
            · obtain ⟨c, hcmem, hcov⟩ := ih (start + 1) rest (by omega) hrec i (by omega) hi2
              exact ⟨c, by rw [← h]; exact List.mem_append.mpr (Or.inr hcmem), hcov⟩
            · have hieq : i = start + 1 := by omega
              have hsegs_ne : segs ≠ [] := by
                have hline : CHROMA_CLOUD_DOC_MAX_BYTES < byteLen (lines.getD start []) := by
                  have hjr := joinRange_single lines start (by omega)
                  rw [hcond.2] at hcond
                  rw [← hjr]
                  exact hcond.1
                have hbytes_ne : strBytes (lines.getD start []) ≠ [] := by
                  intro hnil
                  rw [byteLen, hnil] at hline
                  simp [CHROMA_CLOUD_DOC_MAX_BYTES] at hline
                unfold split_line_by_bytes at hsp
                match hsb : strBytes (lines.getD start []) with
                | [] => exact absurd hsb hbytes_ne
                | b :: tail =>
                  rw [hsb] at hsp
                  have hlen : (b :: tail).length = tail.length + 1 := by simp
                  rw [hlen] at hsp
                  exact splitGo_ne_nil hsp
              obtain ⟨seg, segs', rfl⟩ := List.exists_cons_of_ne_nil hsegs_ne
              refine ⟨⟨seg, start + 1, start + 1, uris⟩, ?_, by dsimp only; omega⟩
              rw [← h]
              simp
      · rw [if_neg hcond] at h
        by_cases hend : lines.length ≤ e
        · rw [if_pos hend] at h
          simp only [Except.ok.injEq] at h
          refine ⟨⟨joinRange lines start e, start + 1, e, uris⟩, ?_, by dsimp only; omega⟩
          rw [← h]
          simp
        · rw [if_neg hend] at h
          simp only [] at h
          match hrec : chunkLoopGo lines pc ov uris fuel (start + max 1 (e - start - ov)) with
          | .error err => rw [hrec] at h; exact absurd h (by simp)
          | .ok rest =>
            rw [hrec] at h
            simp only [Except.ok.injEq] at h
            have hstep : max 1 (e - start - ov) ≤ e - start := by omega
            rcases le_or_lt i e with hie | hie
            · refine ⟨⟨joinRange lines start e, start + 1, e, uris⟩, ?_, by dsimp only; omega⟩
              rw [← h]
              simp
            · obtain ⟨c, hcmem, hcov⟩ :=
                ih (start + max 1 (e - start - ov)) rest (by omega) hrec i (by omega) hi2
              exact ⟨c, by rw [← h]; exact List.mem_cons_of_mem _ hcmem, hcov⟩

theorem chunkLoopGo_no_valueError (lines : List Str) (pc ov : ℕ) (uris : List String) :
    ∀ (fuel start : ℕ) (msg : String),
      chunkLoopGo lines pc ov uris fuel start ≠ .error (.valueError msg) := by
  intro fuel
  induction fuel with
  | zero => intro start msg; simp [chunkLoopGo]
  | succ fuel ih =>
    intro start msg h
    rw [chunkLoopGo] at h
    by_cases hstart : lines.length ≤ start
    · rw [if_pos hstart] at h; exact absurd h (by simp)
    · rw [if_neg hstart] at h
      set e := shrinkEnd lines start (min lines.length (start + pc)) with he
      by_cases hcond : CHROMA_CLOUD_DOC_MAX_BYTES < byteLen (joinRange lines start e) ∧ e = start + 1
      · rw [if_pos hcond] at h
        match hsp : split_line_by_bytes (lines.getD start []) CHROMA_CLOUD_DOC_MAX_BYTES with
        | none => rw [hsp] at h; simp at h
        | some segs =>
          rw [hsp] at h
          match hrec : chunkLoopGo lines pc ov uris fuel (start + 1) with
          | .error err =>
            rw [hrec] at h
            simp only [Except.error.injEq] at h
            exact ih (start + 1) msg (by rw [hrec, h])
          | .ok rest => rw [hrec] at h; simp at h
      · rw [if_neg hcond] at h
        by_cases hend : lines.length ≤ e
        · rw [if_pos hend] at h; simp at h
        · rw [if_neg hend] at h
          simp only [] at h
          match hrec : chunkLoopGo lines pc ov uris fuel (start + max 1 (e - start - ov)) with
          | .error err =>
            rw [hrec] at h
            simp only [Except.error.injEq] at h
            exact ih _ msg (by rw [hrec, h])
          | .ok rest => rw [hrec] at h; simp at h

/-! ## Theorems: splitlines -/

theorem splitlinesGo_nil (fuel : ℕ) (acc : Str) :
    splitlinesGo fuel [] acc = if acc = [] then [] else [acc.reverse] := by
  cases fuel <;> rfl

theorem splitlinesGo_ne_nil :
    ∀ (fuel : ℕ) (s acc : Str), s.length ≤ fuel → (s ≠ [] ∨ acc ≠ []) →
      splitlinesGo fuel s acc ≠ [] := by
  intro fuel
  induction fuel with
  | zero =>
    intro s acc hf hne
    match s with
    | [] =>
      rcases hne with hne | hne
      · exact absurd rfl hne
      · rw [splitlinesGo, if_neg hne]
        simp
    | _ :: _ => simp at hf
  | succ fuel ih =>
    intro s acc hf hne
    match s with
    | [] =>
      rcases hne with hne | hne
      · exact absurd rfl hne
      · rw [splitlinesGo, if_neg hne]
        simp
    | c :: rest =>
      rw [splitlinesGo.eq_def]
      dsimp only
      by_cases hc : c = '\r'
      · rw [if_pos hc]
        match rest with
        | [] => simp
        | d :: rest2 =>
          dsimp only
          by_cases hd : d = '\n'
          · rw [if_pos hd]; simp
          · rw [if_neg hd]; simp
      · rw [if_neg hc]
        by_cases hb : isLineBreakChar c = true
        · rw [if_pos hb]; simp
        · rw [if_neg hb]
          exact ih rest (c :: acc) (by simp at hf ⊢; omega) (Or.inr (by simp))

theorem splitlinesGo_all_plain :
    ∀ (fuel : ℕ) (s acc : Str), s.length ≤ fuel → s ≠ [] →
      (∀ c ∈ s, isLineBreakChar c = false) → splitlinesGo fuel s acc = [acc.reverse ++ s] := by
  intro fuel
  induction fuel with
  | zero =>
    intro s acc hf hne hplain
    match s with
    | [] => exact absurd rfl hne
    | _ :: _ => simp at hf
  | succ fuel ih =>
    intro s acc hf hne hplain
    match s with
    | [] => exact absurd rfl hne
    | c :: rest =>
      have hcb : isLineBreakChar c = false := hplain c (by simp)
      have hc : ¬(c = '\r') := by
        intro hcr
        rw [hcr] at hcb
        simp [isLineBreakChar] at hcb
      rw [splitlinesGo.eq_def]
      dsimp only
      rw [if_neg hc, if_neg (by simp [hcb])]
      match rest with
      | [] =>
        rw [splitlinesGo_nil, if_neg (by simp : ¬(c :: acc : Str) = [])]
        simp
      | d :: rest2 =>
        rw [ih (d :: rest2) (c :: acc) (by simp at hf ⊢; omega) (by simp)
          (fun x hx => hplain x (by simp [hx]))]
        simp

theorem splitlines_nil : splitlines [] = [] := rfl

theorem splitlines_ne_nil (s : Str) (h : s ≠ []) : splitlines s ≠ [] :=
  splitlinesGo_ne_nil s.length s [] le_rfl (Or.inl h)

theorem splitlines_all_plain (s : Str) (h : s ≠ [])
    (hplain : ∀ c ∈ s, isLineBreakChar c = false) : splitlines s = [s] := by
  have := splitlinesGo_all_plain s.length s [] le_rfl h hplain
  simpa [splitlines] using this

/-! ## Theorems: the multi-byte failure of the chunker

The backoff of `_split_line_by_bytes` tests the byte before the cut rather
than the byte at the cut, so on a line longer than 16384 bytes whose cut
neighbourhood is multi-byte the strict decode raises `UnicodeDecodeError`.
The witness input is a single 16386-byte line of 16384 `a`s followed by `é`. -/

theorem charBytes_a : charBytes 'a' = [97] := by decide

theorem charBytes_eacute : charBytes 'é' = [195, 169] := by decide

theorem strBytes_replicate_a (n : ℕ) :
    strBytes (List.replicate n 'a') = List.replicate n 97 := by
  induction n with
  | zero => rfl
  | succ n ih =>
    rw [List.replicate_succ, strBytes_cons, charBytes_a, ih, List.replicate_succ]
    rfl

theorem strBytes_failing_line :
    strBytes (List.replicate 16384 'a' ++ ['é']) = List.replicate 16384 97 ++ [195, 169] := by
  rw [strBytes_append, strBytes_replicate_a, strBytes_cons, charBytes_eacute, strBytes_nil,
    List.append_nil]

theorem failing_line_getD :
    (List.replicate 16384 97 ++ [195, 169] : List ℕ).getD 16383 0 = 97 := by
  rw [List.getD_eq_getElem?_getD,
    List.getElem?_append_left (by rw [List.length_replicate]; norm_num),
    List.getElem?_replicate_of_lt (by omega)]
  rfl

theorem failing_line_backoff :
    backoffJ (List.replicate 16384 97 ++ [195, 169]) 16384 = 16384 := by
  rw [show (16384 : ℕ) = 16383 + 1 from rfl, backoffJ, failing_line_getD]
  rw [if_neg (by decide)]

theorem splitGo_step (mb fuel : ℕ) (r : List ℕ) (hr : r ≠ []) :
    splitGo mb (fuel + 1) r =
      match utf8Decode (r.take (backoffJ r (min r.length mb))) with
      | none => none
      | some seg =>
        (splitGo mb fuel (r.drop (backoffJ r (min r.length mb)))).map
          (fun segs => seg :: segs) := by
  match r with
  | [] => exact absurd rfl hr
  | b :: tail => rfl

theorem split_line_by_bytes_failing :
    split_line_by_bytes (List.replicate 16384 'a' ++ ['é']) 16384 = none := by
  unfold split_line_by_bytes
  rw [strBytes_failing_line]
  have hlen : (List.replicate 16384 97 ++ [195, 169] : List ℕ).length = 16386 := by
    rw [List.length_append, List.length_replicate]
    rfl
  have hne : (List.replicate 16384 97 ++ [195, 169] : List ℕ) ≠ [] := by
    rw [← List.length_pos_iff_ne_nil, hlen]
    norm_num
  rw [hlen]
  rw [show (16386 : ℕ) = 16385 + 1 from rfl, splitGo_step _ _ _ hne, hlen]
  rw [show min 16386 16384 = 16384 from rfl, failing_line_backoff]
  rw [List.take_left' (List.length_replicate _ _), List.drop_left' (List.length_replicate _ _)]
  rw [show utf8Decode (List.replicate 16384 97) = some (List.replicate 16384 'a') from by
    rw [← strBytes_replicate_a]; exact utf8Decode_strBytes _]
  dsimp only
  rw [show (16385 : ℕ) = 16384 + 1 from rfl, splitGo_step _ _ _ (by decide)]
  rw [show backoffJ [195, 169] (min ([195, 169] : List ℕ).length 16384) = 1 from by decide]
  rw [show ([195, 169] : List ℕ).take 1 = [195] from rfl]
  rw [show utf8Decode [195] = none from by decide]
  rfl

theorem chunker_fails_on_multibyte :
    chunk_file_by_lines (List.replicate 16384 'a' ++ ['é']) [] 180 30 = .error .decodeError := by
  unfold chunk_file_by_lines
  rw [if_neg (by omega), if_neg (by omega), if_neg (by omega)]
  have hplain : ∀ c ∈ (List.replicate 16384 'a' ++ ['é'] : Str), isLineBreakChar c = false := by
    intro c hc
    rcases List.mem_append.mp hc with hc | hc
    · rw [List.eq_of_mem_replicate hc]; decide
    · simp only [List.mem_singleton] at hc
      rw [hc]; decide
  have htne : (List.replicate 16384 'a' ++ ['é'] : Str) ≠ [] := by
    rw [← List.length_pos_iff_ne_nil, List.length_append, List.length_replicate]
    norm_num
  have hsl : splitlines (List.replicate 16384 'a' ++ ['é']) =
      [List.replicate 16384 'a' ++ ['é']] := splitlines_all_plain _ htne hplain
  rw [hsl]
  rw [if_neg (by decide)]
  rw [show ((180 : ℤ).toNat) = 180 from rfl, show ((30 : ℤ).toNat) = 30 from rfl]
  rw [show ([List.replicate 16384 'a' ++ ['é']] : List Str).length = 1 from rfl]
  rw [show (1 : ℕ) = 0 + 1 from rfl, chunkLoopGo]
  rw [if_neg (by decide)]
  have hmin : min ([List.replicate 16384 'a' ++ ['é']] : List Str).length (0 + 180) = 1 := by
    decide
  have hshr : shrinkEnd [List.replicate 16384 'a' ++ ['é']] 0
      (min ([List.replicate 16384 'a' ++ ['é']] : List Str).length (0 + 180)) = 1 := by
    rw [hmin]
    rw [show (1 : ℕ) = 0 + 1 from rfl, shrinkEnd]
    rw [if_neg (fun h => by omega)]
  have hjr : joinRange [List.replicate 16384 'a' ++ ['é']] 0
      (shrinkEnd [List.replicate 16384 'a' ++ ['é']] 0
        (min ([List.replicate 16384 'a' ++ ['é']] : List Str).length (0 + 180))) =
      List.replicate 16384 'a' ++ ['é'] := by
    rw [hshr]
    exact joinRange_single _ 0 (by decide)
  have hbl : byteLen (List.replicate 16384 'a' ++ ['é']) = 16386 := by
    rw [byteLen, strBytes_failing_line, List.length_append, List.length_replicate]
    rfl
  rw [if_pos (by rw [hjr, hshr, hbl]; exact ⟨by norm_num [CHROMA_CLOUD_DOC_MAX_BYTES], rfl⟩)]
  rw [show ([List.replicate 16384 'a' ++ ['é']] : List Str).getD 0 [] =
    List.replicate 16384 'a' ++ ['é'] from rfl]
  rw [show (CHROMA_CLOUD_DOC_MAX_BYTES : ℕ) = 16384 from rfl, split_line_by_bytes_failing]

/-! ## Claim theorems: chunker (C3, C4, C9) -/

theorem chunk_file_by_lines_valid (text : Str) (uris : List String) {pc ov : ℤ}
    (hpc : 0 < pc) (hov : 0 ≤ ov) (hlt : ov < pc) :
    chunk_file_by_lines text uris pc ov =
      (if (splitlines text).length = 0 then .ok []
       else chunkLoopGo (splitlines text) pc.toNat ov.toNat uris (splitlines text).length 0) := by
  unfold chunk_file_by_lines
  rw [if_neg (by omega), if_neg (by omega), if_neg (by omega)]

/-- C3: for valid parameters, every chunk a successful run of
`chunk_file_by_lines` returns has UTF-8 byte length at most 16384 and its
text strict-decodes from its own UTF-8 encoding (no chunk boundary splits a
multi-byte character).  The run that instead raises on multi-byte content is
the defect recorded with C9. -/
theorem chunk_bytes_bounded_and_valid (text : Str) (pageUris : List String)
    (perChunk overlap : ℤ) (hpc : 0 < perChunk) (hov : 0 ≤ overlap)
    (hlt : overlap < perChunk) (chunks : List Chunk)
    (hok : chunk_file_by_lines text pageUris perChunk overlap = .ok chunks) :
    ∀ c ∈ chunks, byteLen c.text ≤ 16384 ∧ utf8Decode (strBytes c.text) = some c.text := by
  rw [chunk_file_by_lines_valid text pageUris hpc hov hlt] at hok
  by_cases hn : (splitlines text).length = 0
  · rw [if_pos hn] at hok
    simp only [Except.ok.injEq] at hok
    rw [← hok]
    simp
  · rw [if_neg hn] at hok
    intro c hc
    refine ⟨?_, utf8Decode_strBytes c.text⟩
    have := chunkLoopGo_ok_bytes (splitlines text) perChunk.toNat overlap.toNat pageUris
      (splitlines text).length 0 chunks hok c hc
    simpa [CHROMA_CLOUD_DOC_MAX_BYTES] using this

theorem chunk_bytes_bounded_and_valid_witness :
    ((0 : ℤ) < 2 ∧ (0 : ℤ) ≤ 1 ∧ (1 : ℤ) < 2 ∧
      chunk_file_by_lines ('a' :: '\n' :: 'b' :: '\n' :: 'c' :: []) [] 2 1 =
        .ok [⟨['a', '\n', 'b', '\n'], 1, 2, []⟩, ⟨['b', '\n', 'c'], 2, 3, []⟩]) ∧
    (∀ c ∈ [(⟨['a', '\n', 'b', '\n'], 1, 2, []⟩ : Chunk), ⟨['b', '\n', 'c'], 2, 3, []⟩],
      byteLen c.text ≤ 16384 ∧ utf8Decode (strBytes c.text) = some c.text) :=
  ⟨⟨by decide, by decide, by decide, by decide⟩,
    chunk_bytes_bounded_and_valid ('a' :: '\n' :: 'b' :: '\n' :: 'c' :: []) [] 2 1
      (by decide) (by decide) (by decide)
      [⟨['a', '\n', 'b', '\n'], 1, 2, []⟩, ⟨['b', '\n', 'c'], 2, 3, []⟩] (by decide)⟩

/-- C4: on every successful run with valid parameters the emitted
`[line_start, line_end]` ranges cover every line of the input, and empty
input yields no chunks; but the run is not always successful: on a 16386-byte
single line ending in a multi-byte character the chunker raises instead of
emitting covering chunks (the second conjunct evaluates the model there), so
no chunk covers line 1 of that input. -/
theorem chunk_line_coverage :
    (∀ (text : Str) (uris : List String) (pc ov : ℤ) (chunks : List Chunk),
        0 < pc → 0 ≤ ov → ov < pc →
        chunk_file_by_lines text uris pc ov = .ok chunks →
        (∀ i : ℕ, 1 ≤ i → i ≤ (splitlines text).length →
          ∃ c ∈ chunks, c.line_start ≤ i ∧ i ≤ c.line_end) ∧
        (text = [] → chunks = []) ∧ (text ≠ [] → 1 ≤ (splitlines text).length)) ∧
    chunk_file_by_lines (List.replicate 16384 'a' ++ ['é']) [] 180 30 = .error .decodeError := by
  constructor
  · intro text uris pc ov chunks hpc hov hlt hok
    rw [chunk_file_by_lines_valid text uris hpc hov hlt] at hok
    refine ⟨?_, ?_, ?_⟩
    · intro i hi1 hi2
      by_cases hn : (splitlines text).length = 0
      · omega
      · rw [if_neg hn] at hok
        exact chunkLoopGo_ok_cover (splitlines text) pc.toNat ov.toNat uris (by omega)
          (splitlines text).length 0 chunks (by omega) hok i (by omega) hi2
    · intro htext
      subst htext
      rw [if_pos (by rw [splitlines_nil]; rfl)] at hok
      simp only [Except.ok.injEq] at hok
      exact hok.symm
    · intro htext
      have := splitlines_ne_nil text htext
      have := List.length_pos_iff_ne_nil.mpr this
      omega
  · exact chunker_fails_on_multibyte

theorem chunk_line_coverage_witness :
    ∃ c ∈ [(⟨['a', '\n', 'b', '\n'], 1, 2, []⟩ : Chunk), ⟨['b', '\n', 'c'], 2, 3, []⟩],
      c.line_start ≤ 3 ∧ 3 ≤ c.line_end :=
  (chunk_line_coverage.1 ('a' :: '\n' :: 'b' :: '\n' :: 'c' :: []) [] 2 1
      [⟨['a', '\n', 'b', '\n'], 1, 2, []⟩, ⟨['b', '\n', 'c'], 2, 3, []⟩]
      (by decide) (by decide) (by decide) (by decide)).1 3 (by decide) (by decide)

/-- C9: `chunk_file_by_lines` raises `ValueError` exactly for invalid
parameters; but with valid parameters it is not exception-free on content:
the second conjunct evaluates the model at a 16386-byte line ending in a
multi-byte character, where the strict decode inside `_split_line_by_bytes`
raises `UnicodeDecodeError` (the backoff inspects `b[j-1]` instead of
`b[j]`), contradicting the function's documented contract. -/
theorem chunker_validation_iff_and_decode_failure :
    (∀ (text : Str) (uris : List String) (pc ov : ℤ),
        (∃ msg, chunk_file_by_lines text uris pc ov = .error (.valueError msg)) ↔
          (pc ≤ 0 ∨ ov < 0 ∨ pc ≤ ov)) ∧
    chunk_file_by_lines (List.replicate 16384 'a' ++ ['é']) [] 180 30 = .error .decodeError := by
  constructor
  · intro text uris pc ov
    constructor
    · rintro ⟨msg, hmsg⟩
      by_contra hbad
      push_neg at hbad
      obtain ⟨h1, h2, h3⟩ := hbad
      rw [chunk_file_by_lines_valid text uris (by omega) (by omega) (by omega)] at hmsg
      by_cases hn : (splitlines text).length = 0
      · rw [if_pos hn] at hmsg
        exact absurd hmsg (by simp)
      · rw [if_neg hn] at hmsg
        exact chunkLoopGo_no_valueError (splitlines text) pc.toNat ov.toNat uris
          (splitlines text).length 0 msg hmsg
    · intro hbad
      unfold chunk_file_by_lines
      by_cases h1 : pc ≤ 0
      · rw [if_pos h1]
        exact ⟨"per_chunk must be positive", rfl⟩
      · rw [if_neg h1]
        by_cases h2 : ov < 0
        · rw [if_pos h2]
          exact ⟨"overlap must be non-negative", rfl⟩
        · rw [if_neg h2]
          rw [if_pos (by omega)]
          exact ⟨"overlap must be less than per_chunk", rfl⟩
  · exact chunker_fails_on_multibyte

theorem chunker_validation_iff_witness :
    ∃ msg, chunk_file_by_lines ['t'] [] 0 0 = .error (.valueError msg) :=
  (chunker_validation_iff_and_decode_failure.1 ['t'] [] 0 0).mpr (Or.inl (by decide))

/-! ## Claim theorems: semantic score transform (C7, C10) -/

/-- C7 counterexample: the transform does not strictly decrease over all
present distances, because every non-positive distance is clamped to score
1.0: distances -1 < 0 receive the same score. -/
theorem distance_strict_decrease_counterexample :
    ¬(distance_to_score (some (0 : ℚ)) < distance_to_score (some (-1 : ℚ))) ∧
      (-1 : ℚ) < 0 := by
  constructor
  · show ¬(1 / (1 + max (0 : ℚ) 0) < 1 / (1 + max (-1 : ℚ) 0))
    norm_num
  · norm_num

/-- C7 (amended): `distance_to_score` returns 0.0 for an absent distance,
1.0 at distance 0.0, equals `1/(1+max(d,0))` for a present distance, is
bounded in (0,1], and strictly decreases as the distance increases over
non-negative distances (on negative distances it is constantly 1.0, see
C10). -/
theorem distance_to_score_props :
    distance_to_score none = 0 ∧
    distance_to_score (some 0) = 1 ∧
    (∀ d : ℚ, distance_to_score (some d) = 1 / (1 + max d 0)) ∧
    (∀ d : ℚ, 0 < distance_to_score (some d) ∧ distance_to_score (some d) ≤ 1) ∧
    (∀ d1 d2 : ℚ, 0 ≤ d1 → d1 < d2 →
      distance_to_score (some d2) < distance_to_score (some d1)) := by
  refine ⟨rfl, by show 1 / (1 + max (0 : ℚ) 0) = 1; norm_num, fun d => rfl,
    fun d => ⟨?_, ?_⟩, fun d1 d2 h1 h2 => ?_⟩
  · have hden : (0 : ℚ) < 1 + max d 0 := by
      have : (0 : ℚ) ≤ max d 0 := le_max_right d 0
      linarith
    exact div_pos one_pos hden
  · have hden : (1 : ℚ) ≤ 1 + max d 0 := by
      have : (0 : ℚ) ≤ max d 0 := le_max_right d 0
      linarith
    show 1 / (1 + max d 0) ≤ 1
    rw [div_le_one (by linarith)]
    exact hden
  · show 1 / (1 + max d2 0) < 1 / (1 + max d1 0)
    rw [max_eq_left h1, max_eq_left (by linarith)]
    apply one_div_lt_one_div_of_lt
    · linarith
    · linarith

theorem distance_to_score_props_witness :
    (0 : ℚ) ≤ 1 ∧ (1 : ℚ) < 2 ∧
      distance_to_score (some (2 : ℚ)) < distance_to_score (some (1 : ℚ)) :=
  ⟨by norm_num, by norm_num, distance_to_score_props.2.2.2.2 1 2 (by norm_num) (by norm_num)⟩

/-- C10: every non-positive distance is clamped to zero before the
`1/(1+d)` transform, so it maps to the maximum score 1.0. -/
theorem distance_nonpositive_gives_one (d : ℚ) (hd : d ≤ 0) :
    distance_to_score (some d) = 1 := by
  show 1 / (1 + max d 0) = 1
  rw [max_eq_right hd]
  norm_num

theorem distance_nonpositive_gives_one_witness :
    (-5 : ℚ) ≤ 0 ∧ distance_to_score (some (-5 : ℚ)) = 1 :=
  ⟨by norm_num, distance_nonpositive_gives_one (-5) (by norm_num)⟩

/-! ## Claim theorems: result fuser (C1, C2) -/

theorem mem_map_doc_id_iff (l : List ChanRes) (did : String) :
    did ∈ l.map ChanRes.doc_id ↔ (l.find? (fun r => r.doc_id = did)).isSome := by
  rw [List.find?_isSome, List.mem_map]
  constructor
  · rintro ⟨r, hr, hrd⟩
    exact ⟨r, hr, by simp [hrd]⟩
  · rintro ⟨r, hr, hrd⟩
    simp only [decide_eq_true_eq] at hrd
    exact ⟨r, hr, hrd⟩

/-- C1: for every id in the union of the deduplicated channel results, the
fused combined score is the weighted sum when the id is present in both
channels, and the present channel's score otherwise (the Python
`sem_score or lex_score` fallback agrees with the present channel's score in
every case, including score 0.0). -/
theorem hybrid_fusion_combined_score (semR lexR : List ChanRes) (wS wL : ℚ) (did : String)
    (hmem : did ∈ semR.map ChanRes.doc_id ∨ did ∈ lexR.map ChanRes.doc_id) :
    (fuseEntry semR lexR wS wL did).score =
      if did ∈ semR.map ChanRes.doc_id ∧ did ∈ lexR.map ChanRes.doc_id then
        wS * (((semR.find? (fun r => r.doc_id = did)).map ChanRes.score).getD 0) +
          wL * (((lexR.find? (fun r => r.doc_id = did)).map ChanRes.score).getD 0)
      else if did ∈ semR.map ChanRes.doc_id then
        ((semR.find? (fun r => r.doc_id = did)).map ChanRes.score).getD 0
      else ((lexR.find? (fun r => r.doc_id = did)).map ChanRes.score).getD 0 := by
  simp only [fuseEntry]
  by_cases hs : (semR.find? (fun r => r.doc_id = did)).isSome <;>
    by_cases hl : (lexR.find? (fun r => r.doc_id = did)).isSome
  · rw [if_pos ⟨hs, hl⟩,
      if_pos ⟨(mem_map_doc_id_iff _ _).mpr hs, (mem_map_doc_id_iff _ _).mpr hl⟩]
    obtain ⟨rs, hrs⟩ := Option.isSome_iff_exists.mp hs
    obtain ⟨rl, hrl⟩ := Option.isSome_iff_exists.mp hl
    rw [hrs, hrl]
    rfl
  · rw [if_neg (fun h => hl h.2),
      if_neg (fun h => hl ((mem_map_doc_id_iff _ _).mp h.2)),
      if_pos ((mem_map_doc_id_iff _ _).mpr hs)]
    obtain ⟨rs, hrs⟩ := Option.isSome_iff_exists.mp hs
    have hln : lexR.find? (fun r => r.doc_id = did) = none := by
      rw [← Option.not_isSome_iff_eq_none]
      exact hl
    rw [hrs, hln]
    show pyOrQ rs.score 0 = rs.score
    unfold pyOrQ
    by_cases h0 : rs.score = 0
    · rw [if_pos h0, h0]
    · rw [if_neg h0]
  · rw [if_neg (fun h => hs h.1),
      if_neg (fun h => hs ((mem_map_doc_id_iff _ _).mp h.1)),
      if_neg (fun h => hs ((mem_map_doc_id_iff _ _).mp h))]
    obtain ⟨rl, hrl⟩ := Option.isSome_iff_exists.mp hl
    have hsn : semR.find? (fun r => r.doc_id = did) = none := by
      rw [← Option.not_isSome_iff_eq_none]
      exact hs
    rw [hsn, hrl]
    show pyOrQ 0 rl.score = rl.score
    unfold pyOrQ
    rw [if_pos rfl]
  · exfalso
    rcases hmem with hmem | hmem
    · exact hs ((mem_map_doc_id_iff _ _).mp hmem)
    · exact hl ((mem_map_doc_id_iff _ _).mp hmem)

theorem hybrid_fusion_combined_score_witness :
    ("d" ∈ ([⟨"d", 0.8, none, [], none, none⟩] : List ChanRes).map ChanRes.doc_id ∨
      "d" ∈ ([⟨"d", 0.4, none, [], none, none⟩] : List ChanRes).map ChanRes.doc_id) ∧
    |(fuseEntry [⟨"d", 0.8, none, [], none, none⟩] [⟨"d", 0.4, none, [], none, none⟩]
        0.6 0.4 "d").score - 0.64| ≤ 1 / 1000000 := by
  refine ⟨Or.inl (by simp), ?_⟩
  rw [hybrid_fusion_combined_score [⟨"d", 0.8, none, [], none, none⟩]
    [⟨"d", 0.4, none, [], none, none⟩] 0.6 0.4 "d" (Or.inl (by simp))]
  norm_num

theorem hybrid_search_shapes (semChannel : Str → ℤ → List ChanRes)
    (lexChannel : List String → List String → Option String → ℤ → List ChanRes)
    (query : Str) (k : ℤ) (mt rg : List String) (pl : Option String) (wS wL : ℚ) :
    hybrid_search semChannel lexChannel query k mt rg pl wS wL = [] ∨
      ∃ fused, hybrid_search semChannel lexChannel query k mt rg pl wS wL =
        (List.insertionSort fusedBefore fused).take k.toNat := by
  unfold hybrid_search
  by_cases h1 : k ≤ 0
  · rw [if_pos h1]
    exact Or.inl rfl
  · rw [if_neg h1]
    dsimp only
    split
    · exact Or.inl rfl
    · exact Or.inr ⟨_, rfl⟩

theorem sorted_take_insertionSort (l : List FusedRes) (n : ℕ) :
    List.Sorted fusedBefore ((List.insertionSort fusedBefore l).take n) :=
  List.Pairwise.sublist (List.take_sublist n _) (List.sorted_insertionSort fusedBefore l)

/-- C2: the fused list `hybrid_search` returns is sorted descending by
combined score with ties broken by descending `rrf_score` (the sort key of
the source); its length never exceeds a non-negative requested `k`;
`k ≤ 0` yields `[]`; and so does a request in which neither channel is
active (blank trimmed query, no terms, no regexes, no path filter). -/
theorem hybrid_search_ordering_and_truncation (semChannel : Str → ℤ → List ChanRes)
    (lexChannel : List String → List String → Option String → ℤ → List ChanRes)
    (query : Str) (k : ℤ) (mt rg : List String) (pl : Option String) (wS wL : ℚ) :
    List.Sorted fusedBefore (hybrid_search semChannel lexChannel query k mt rg pl wS wL) ∧
    (0 ≤ k → ((hybrid_search semChannel lexChannel query k mt rg pl wS wL).length : ℤ) ≤ k) ∧
    (k ≤ 0 → hybrid_search semChannel lexChannel query k mt rg pl wS wL = []) ∧
    (pyStrip query = [] → mt = [] → rg = [] → (pl = none ∨ pl = some "") →
      hybrid_search semChannel lexChannel query k mt rg pl wS wL = []) := by
  refine ⟨?_, ?_, ?_, ?_⟩
  · rcases hybrid_search_shapes semChannel lexChannel query k mt rg pl wS wL with h | ⟨fused, h⟩
    · rw [h]; exact List.sorted_nil
    · rw [h]; exact sorted_take_insertionSort fused k.toNat
  · intro hk
    rcases hybrid_search_shapes semChannel lexChannel query k mt rg pl wS wL with h | ⟨fused, h⟩
    · rw [h]; simpa using hk
    · rw [h]
      calc (((List.insertionSort fusedBefore fused).take k.toNat).length : ℤ)
          ≤ (k.toNat : ℤ) := by
            have := List.length_take_le k.toNat (List.insertionSort fusedBefore fused)
            exact_mod_cast this
        _ = k := by rw [Int.toNat_of_nonneg hk]
  · intro hk
    unfold hybrid_search
    rw [if_pos hk]
  · intro hq hmt hrg hpl
    unfold hybrid_search
    by_cases hk : k ≤ 0
    · rw [if_pos hk]
    · rw [if_neg hk]
      dsimp only
      rw [if_pos ?_]
      rw [hq, hmt, hrg]
      rcases hpl with hpl | hpl <;> rw [hpl] <;> rfl

theorem hybrid_search_ordering_and_truncation_witness :
    List.Sorted fusedBefore
      (hybrid_search (fun _ _ => [⟨"d1", 0.8, none, [], none, none⟩])
        (fun _ _ _ _ => [⟨"d1", 0.4, none, [], none, none⟩, ⟨"d3", 0.9, none, [], none, none⟩])
        ['q'] 2 ["t"] [] none 0.6 0.4) ∧
    ((hybrid_search (fun _ _ => [⟨"d1", 0.8, none, [], none, none⟩])
        (fun _ _ _ _ => [⟨"d1", 0.4, none, [], none, none⟩, ⟨"d3", 0.9, none, [], none, none⟩])
        ['q'] 2 ["t"] [] none 0.6 0.4).length : ℤ) ≤ 2 ∧
    hybrid_search (fun _ _ => [⟨"d1", 0.8, none, [], none, none⟩])
      (fun _ _ _ _ => [⟨"d1", 0.4, none, [], none, none⟩, ⟨"d3", 0.9, none, [], none, none⟩])
      ['q'] 0 ["t"] [] none 0.6 0.4 = [] ∧
    hybrid_search (fun _ _ => [⟨"d1", 0.8, none, [], none, none⟩])
      (fun _ _ _ _ => [⟨"d1", 0.4, none, [], none, none⟩, ⟨"d3", 0.9, none, [], none, none⟩])
      [' '] 5 [] [] (some "") 0.6 0.4 = [] :=
  ⟨(hybrid_search_ordering_and_truncation _ _ ['q'] 2 ["t"] [] none 0.6 0.4).1,
    (hybrid_search_ordering_and_truncation _ _ ['q'] 2 ["t"] [] none 0.6 0.4).2.1 (by norm_num),
    (hybrid_search_ordering_and_truncation _ _ ['q'] 0 ["t"] [] none 0.6 0.4).2.2.1 le_rfl,
    (hybrid_search_ordering_and_truncation _ _ [' '] 5 [] [] (some "") 0.6 0.4).2.2.2
      (by decide) rfl rfl (Or.inr rfl)⟩

/-! ## Theorems: lexical scorer helpers -/

theorem dictGet_fold_aux (k : Str) (v : ℕ) :
    ∀ (l : List (Str × ℕ)) (acc : Option ℕ), (∀ p ∈ l, p.1 = k → p.2 = v) →
      List.foldl (fun acc p => if p.1 = k then some p.2 else acc) acc l =
        if ∃ p ∈ l, p.1 = k then some v else acc := by
  intro l
  induction l with
  | nil => intro acc _; simp
  | cons p rest ih =>
    intro acc hcons
    rw [List.foldl_cons]
    by_cases hp : p.1 = k
    · rw [if_pos hp, ih (some p.2) (fun q hq hqk => hcons q (List.mem_cons_of_mem p hq) hqk)]
      by_cases hex : ∃ q ∈ rest, q.1 = k
      · rw [if_pos hex, if_pos ⟨p, List.mem_cons_self p rest, hp⟩]
      · rw [if_neg hex, if_pos ⟨p, List.mem_cons_self p rest, hp⟩,
          hcons p (List.mem_cons_self p rest) hp]
    · rw [if_neg hp, ih acc (fun q hq hqk => hcons q (List.mem_cons_of_mem p hq) hqk)]
      by_cases hex : ∃ q ∈ rest, q.1 = k
      · obtain ⟨q, hq, hqk⟩ := hex
        rw [if_pos ⟨q, hq, hqk⟩, if_pos ⟨q, List.mem_cons_of_mem p hq, hqk⟩]
      · rw [if_neg hex, if_neg ?_]
        rintro ⟨q, hq, hqk⟩
        rcases List.mem_cons.mp hq with rfl | hq
        · exact hp hqk
        · exact hex ⟨q, hq, hqk⟩

theorem dictGet_map (f : Str → ℕ) (l : List Str) (t : Str) :
    dictGet (l.map fun x => (x, f x)) t = if t ∈ l then some (f t) else none := by
  unfold dictGet
  rw [dictGet_fold_aux t (f t) _ none ?_]
  · by_cases ht : t ∈ l
    · rw [if_pos ht, if_pos ?_]
      exact ⟨(t, f t), List.mem_map.mpr ⟨t, ht, rfl⟩, rfl⟩
    · rw [if_neg ht, if_neg ?_]
      rintro ⟨p, hp, hpk⟩
      obtain ⟨x, hx, rfl⟩ := List.mem_map.mp hp
      exact ht (hpk ▸ hx)
  · rintro p hp hpk
    obtain ⟨x, hx, rfl⟩ := List.mem_map.mp hp
    simp only at hpk
    rw [hpk]

theorem lexMetricsCore_max_raw (eng : RegexEngine) (doc : Str) (terms pats : List Str) :
    (lexMetricsCore eng doc terms pats).max_raw =
      ((terms.length * 3 : ℕ) : ℚ) + 3 / 2 * ((pats.length * 3 : ℕ) : ℚ) := by
  simp only [lexMetricsCore, LEX_W_TERM, LEX_W_REGEX, LEX_TERM_CAP, LEX_REGEX_CAP]
  norm_num

theorem lexMetricsCore_max_raw_pos (eng : RegexEngine) (doc : Str) (terms pats : List Str)
    (h : terms ≠ [] ∨ pats ≠ []) : 0 < (lexMetricsCore eng doc terms pats).max_raw := by
  rw [lexMetricsCore_max_raw]
  have h1 : (0 : ℚ) ≤ ((terms.length * 3 : ℕ) : ℚ) := by positivity
  have h2 : (0 : ℚ) ≤ ((pats.length * 3 : ℕ) : ℚ) := by positivity
  rcases h with h | h
  · have : 1 ≤ terms.length := List.length_pos_iff_ne_nil.mpr h
    have : (3 : ℚ) ≤ ((terms.length * 3 : ℕ) : ℚ) := by exact_mod_cast Nat.le_mul_of_pos_left 3 (by omega)
    linarith
  · have : 1 ≤ pats.length := List.length_pos_iff_ne_nil.mpr h
    have : (3 : ℚ) ≤ ((pats.length * 3 : ℕ) : ℚ) := by exact_mod_cast Nat.le_mul_of_pos_left 3 (by omega)
    linarith

theorem capped_sum_le (c : ℕ) : ∀ l : List ℕ, (l.map (fun h => min h c)).sum ≤ l.length * c := by
  intro l
  induction l with
  | nil => simp
  | cons x rest ih =>
    simp only [List.map_cons, List.sum_cons, List.length_cons]
    have : min x c ≤ c := min_le_right x c
    calc min x c + (rest.map (fun h => min h c)).sum ≤ c + rest.length * c := by omega
      _ = (rest.length + 1) * c := by ring

theorem lexMetricsCore_raw_nonneg (eng : RegexEngine) (doc : Str) (terms pats : List Str) :
    0 ≤ (lexMetricsCore eng doc terms pats).raw := by
  simp only [lexMetricsCore, LEX_W_TERM, LEX_W_REGEX]
  positivity

theorem lexMetricsCore_raw_le_max (eng : RegexEngine) (doc : Str) (terms pats : List Str) :
    (lexMetricsCore eng doc terms pats).raw ≤ (lexMetricsCore eng doc terms pats).max_raw := by
  simp only [lexMetricsCore, LEX_W_TERM, LEX_W_REGEX, LEX_TERM_CAP, LEX_REGEX_CAP]
  have h1 := capped_sum_le 3 (terms.map fun t => countSub (lowerStr doc) (lowerStr t))
  have h2 := capped_sum_le 3 (pats.map fun p => eng.count p doc)
  rw [List.length_map] at h1 h2
  have h1q : ((terms.map fun t => countSub (lowerStr doc) (lowerStr t)).map
      (fun h => min h 3)).sum ≤ (terms.length * 3 : ℕ) := h1
  have h2q : ((pats.map fun p => eng.count p doc).map (fun h => min h 3)).sum ≤
      (pats.length * 3 : ℕ) := h2
  have c1 : (((terms.map fun t => countSub (lowerStr doc) (lowerStr t)).map
      (fun h => min h 3)).sum : ℚ) ≤ ((terms.length * 3 : ℕ) : ℚ) := by exact_mod_cast h1q
  have c2 : (((pats.map fun p => eng.count p doc).map (fun h => min h 3)).sum : ℚ) ≤
      ((pats.length * 3 : ℕ) : ℚ) := by exact_mod_cast h2q
  nlinarith

theorem filters_satisfied_iff (eng : RegexEngine) (doc : Str) (terms pats : List Str) :
    filters_satisfied (lexMetricsCore eng doc terms pats) terms pats = true ↔
      ((∀ t ∈ terms, 0 < countSub (lowerStr doc) (lowerStr t)) ∧
        (pats = [] ∨ ∃ p ∈ pats, 0 < eng.count p doc)) := by
  have hterm : (lexMetricsCore eng doc terms pats).per_term =
      terms.map fun t => (t, countSub (lowerStr doc) (lowerStr t)) := rfl
  have hregex : (lexMetricsCore eng doc terms pats).per_regex =
      pats.map fun p => (p, eng.count p doc) := rfl
  unfold filters_satisfied
  rw [Bool.and_eq_true]
  constructor
  · rintro ⟨htok, hrok⟩
    constructor
    · intro t ht
      by_cases hte : terms.isEmpty
      · rw [List.isEmpty_iff] at hte
        rw [hte] at ht
        simp at ht
      · rw [if_neg (by simp [hte])] at htok
        have := List.all_eq_true.mp htok t ht
        rw [hterm, dictGet_map, if_pos ht] at this
        simpa using this
    · by_cases hpe : pats.isEmpty
      · exact Or.inl (List.isEmpty_iff.mp hpe)
      · rw [if_neg (by simp [hpe])] at hrok
        obtain ⟨p, hp, hcnt⟩ := List.any_eq_true.mp hrok
        rw [hregex, dictGet_map, if_pos hp] at hcnt
        exact Or.inr ⟨p, hp, by simpa using hcnt⟩
  · rintro ⟨hterms, hpats⟩
    constructor
    · by_cases hte : terms.isEmpty
      · rw [if_pos hte]
      · rw [if_neg hte]
        refine List.all_eq_true.mpr fun t ht => ?_
        rw [hterm, dictGet_map, if_pos ht]
        simpa using hterms t ht
    · by_cases hpe : pats.isEmpty
      · rw [if_pos hpe]
      · rw [if_neg hpe]
        rcases hpats with hpats | ⟨p, hp, hcnt⟩
        · rw [hpats] at hpe
          simp at hpe
        · refine List.any_eq_true.mpr ⟨p, hp, ?_⟩
          rw [hregex, dictGet_map, if_pos hp]
          simpa using hcnt

theorem compute_lexical_score_active (eng : RegexEngine) (doc : Str) (terms pats : List Str)
    (h : terms ≠ [] ∨ pats ≠ []) :
    compute_lexical_score eng doc terms pats =
      (max 0 (min ((((lexMetricsCore eng doc terms pats).raw : ℝ) /
          ((lexMetricsCore eng doc terms pats).max_raw : ℝ)) /
          (1 + LEX_LENGTH_ALPHA * Real.log (1 + (doc.length : ℝ) / 1000))) 1),
        lexMetricsCore eng doc terms pats) := by
  unfold compute_lexical_score
  rw [if_neg (not_le.mpr (lexMetricsCore_max_raw_pos eng doc terms pats h))]

theorem compute_lexical_score_inactive (eng : RegexEngine) (doc : Str) :
    compute_lexical_score eng doc [] [] = (0, ⟨0, 0, doc.length, [], [], 0, 0⟩) := by
  unfold compute_lexical_score
  rw [if_pos ?_]
  rw [lexMetricsCore_max_raw]
  norm_num

/-- C5: the lexical score is exactly the clamped, length-penalized,
normalized weighted sum of capped hit counts stated by the specification,
is exactly 0.0 when the theoretical maximum is zero, and always lies in
[0, 1]. -/
theorem lexical_score_formula (eng : RegexEngine) (doc : Str) (terms pats : List Str) :
    ((compute_lexical_score eng doc terms pats).1 =
      if (1 : ℝ) * ((terms.length * 3 : ℕ) : ℝ) + 1.5 * ((pats.length * 3 : ℕ) : ℝ) = 0 then 0
      else
        max 0 (min
          ((((1 : ℝ) * (((terms.map fun t => min (countSub (lowerStr doc) (lowerStr t)) 3).sum : ℕ) : ℝ) +
              1.5 * (((pats.map fun p => min (eng.count p doc) 3).sum : ℕ) : ℝ)) /
            ((1 : ℝ) * ((terms.length * 3 : ℕ) : ℝ) + 1.5 * ((pats.length * 3 : ℕ) : ℝ))) /
            (1 + 0.2 * Real.log (1 + (doc.length : ℝ) / 1000))) 1)) ∧
    0 ≤ (compute_lexical_score eng doc terms pats).1 ∧
    (compute_lexical_score eng doc terms pats).1 ≤ 1 := by
  by_cases hte : terms = []
  · by_cases hpe : pats = []
    · subst hte; subst hpe
      rw [compute_lexical_score_inactive]
      refine ⟨?_, le_rfl, zero_le_one⟩
      rw [if_pos (by norm_num)]
    · have hact : terms ≠ [] ∨ pats ≠ [] := Or.inr hpe
      rw [compute_lexical_score_active eng doc terms pats hact]
      refine ⟨?_, le_max_left 0 _, max_le zero_le_one (min_le_right _ 1)⟩
      rw [if_neg ?_]
      · show max 0 (min _ 1) = max 0 (min _ 1)
        congr 2
        rw [show (lexMetricsCore eng doc terms pats).raw =
            LEX_W_TERM * (((terms.map fun t => min (countSub (lowerStr doc) (lowerStr t))
              LEX_TERM_CAP).sum : ℕ) : ℚ) +
            LEX_W_REGEX * (((pats.map fun p => min (eng.count p doc) LEX_REGEX_CAP).sum : ℕ) : ℚ)
          from by simp [lexMetricsCore, List.map_map]; rfl]
        rw [lexMetricsCore_max_raw]
        simp only [LEX_W_TERM, LEX_W_REGEX, LEX_TERM_CAP, LEX_REGEX_CAP, LEX_LENGTH_ALPHA]
        push_cast
        norm_num [Function.comp_def]
      · have h1 : (0 : ℝ) ≤ ((terms.length * 3 : ℕ) : ℝ) := by positivity
        have h2 : (0 : ℝ) < ((pats.length * 3 : ℕ) : ℝ) := by
          have : 1 ≤ pats.length := List.length_pos_iff_ne_nil.mpr hpe
          exact_mod_cast Nat.lt_of_lt_of_le (by omega) (Nat.le_mul_of_pos_left 3 (by omega))
        nlinarith
  · have hact : terms ≠ [] ∨ pats ≠ [] := Or.inl hte
    rw [compute_lexical_score_active eng doc terms pats hact]
    refine ⟨?_, le_max_left 0 _, max_le zero_le_one (min_le_right _ 1)⟩
    rw [if_neg ?_]
    · show max 0 (min _ 1) = max 0 (min _ 1)
      congr 2
      rw [show (lexMetricsCore eng doc terms pats).raw =
          LEX_W_TERM * (((terms.map fun t => min (countSub (lowerStr doc) (lowerStr t))
            LEX_TERM_CAP).sum : ℕ) : ℚ) +
          LEX_W_REGEX * (((pats.map fun p => min (eng.count p doc) LEX_REGEX_CAP).sum : ℕ) : ℚ)
        from by simp [lexMetricsCore, List.map_map]; rfl]
      rw [lexMetricsCore_max_raw]
      simp only [LEX_W_TERM, LEX_W_REGEX, LEX_TERM_CAP, LEX_REGEX_CAP, LEX_LENGTH_ALPHA]
      push_cast
      norm_num [Function.comp_def]
    · have h1 : (0 : ℝ) ≤ ((pats.length * 3 : ℕ) : ℝ) := by positivity
      have h2 : (0 : ℝ) < ((terms.length * 3 : ℕ) : ℝ) := by
        have : 1 ≤ terms.length := List.length_pos_iff_ne_nil.mpr hte
        exact_mod_cast Nat.lt_of_lt_of_le (by omega) (Nat.le_mul_of_pos_left 3 (by omega))
      nlinarith

/-- C8: with identical per-term and per-regex hit counts and a non-zero raw
score, the strictly shorter document scores strictly higher, because the
length penalty `1 + 0.2 * log1p(len/1000)` is strictly increasing in the
document length and the clamp is inactive on (0, 1] values. -/
theorem lexical_length_penalty_ordering (eng : RegexEngine) (doc1 doc2 : Str)
    (terms pats : List Str)
    (hterms : ∀ t ∈ terms,
      countSub (lowerStr doc1) (lowerStr t) = countSub (lowerStr doc2) (lowerStr t))
    (hpats : ∀ p ∈ pats, eng.count p doc1 = eng.count p doc2)
    (hlen : doc1.length < doc2.length)
    (hraw : 0 < (lexMetricsCore eng doc1 terms pats).raw) :
    (compute_lexical_score eng doc2 terms pats).1 <
      (compute_lexical_score eng doc1 terms pats).1 := by
  have hact : terms ≠ [] ∨ pats ≠ [] := by
    by_contra hcon
    push_neg at hcon
    obtain ⟨h1, h2⟩ := hcon
    subst h1; subst h2
    simp [lexMetricsCore, LEX_W_TERM, LEX_W_REGEX] at hraw
  have hmap1 : (terms.map fun t => countSub (lowerStr doc1) (lowerStr t)) =
      terms.map fun t => countSub (lowerStr doc2) (lowerStr t) :=
    List.map_congr_left hterms
  have hmap2 : (pats.map fun p => eng.count p doc1) = pats.map fun p => eng.count p doc2 :=
    List.map_congr_left hpats
  have hraweq : (lexMetricsCore eng doc1 terms pats).raw =
      (lexMetricsCore eng doc2 terms pats).raw := by
    simp only [lexMetricsCore]
    rw [hmap1, hmap2]
  have hmaxeq : (lexMetricsCore eng doc1 terms pats).max_raw =
      (lexMetricsCore eng doc2 terms pats).max_raw := by
    rw [lexMetricsCore_max_raw, lexMetricsCore_max_raw]
  have hmaxpos : 0 < (lexMetricsCore eng doc1 terms pats).max_raw :=
    lexMetricsCore_max_raw_pos eng doc1 terms pats hact
  rw [compute_lexical_score_active eng doc1 terms pats hact,
    compute_lexical_score_active eng doc2 terms pats hact]
  dsimp only
  rw [← hraweq, ← hmaxeq]
  set x : ℝ := ((lexMetricsCore eng doc1 terms pats).raw : ℝ) /
    ((lexMetricsCore eng doc1 terms pats).max_raw : ℝ) with hx
  have hx0 : 0 < x := by
    apply div_pos
    · exact_mod_cast hraw
    · exact_mod_cast hmaxpos
  have hx1 : x ≤ 1 := by
    rw [hx, div_le_one (by exact_mod_cast hmaxpos)]
    exact_mod_cast lexMetricsCore_raw_le_max eng doc1 terms pats
  have hpen : ∀ d : Str, (1 : ℝ) ≤ 1 + LEX_LENGTH_ALPHA * Real.log (1 + (d.length : ℝ) / 1000) := by
    intro d
    have hlog : 0 ≤ Real.log (1 + (d.length : ℝ) / 1000) := by
      apply Real.log_nonneg
      have : (0 : ℝ) ≤ (d.length : ℝ) / 1000 := by positivity
      linarith
    have : (0 : ℝ) ≤ LEX_LENGTH_ALPHA := by rw [LEX_LENGTH_ALPHA]; norm_num
    nlinarith
  have hpenlt : 1 + LEX_LENGTH_ALPHA * Real.log (1 + (doc1.length : ℝ) / 1000) <
      1 + LEX_LENGTH_ALPHA * Real.log (1 + (doc2.length : ℝ) / 1000) := by
    have hl : Real.log (1 + (doc1.length : ℝ) / 1000) <
        Real.log (1 + (doc2.length : ℝ) / 1000) := by
      apply Real.log_lt_log
      · have : (0 : ℝ) ≤ (doc1.length : ℝ) / 1000 := by positivity
        linarith
      · have : (doc1.length : ℝ) < (doc2.length : ℝ) := by exact_mod_cast hlen
        linarith
    have ha : (0 : ℝ) < LEX_LENGTH_ALPHA := by rw [LEX_LENGTH_ALPHA]; norm_num
    nlinarith
  have hclamp : ∀ d : Str,
      max 0 (min (x / (1 + LEX_LENGTH_ALPHA * Real.log (1 + (d.length : ℝ) / 1000))) 1) =
        x / (1 + LEX_LENGTH_ALPHA * Real.log (1 + (d.length : ℝ) / 1000)) := by
    intro d
    have hp1 := hpen d
    have hvpos : 0 < x / (1 + LEX_LENGTH_ALPHA * Real.log (1 + (d.length : ℝ) / 1000)) :=
      div_pos hx0 (by linarith)
    have hvle : x / (1 + LEX_LENGTH_ALPHA * Real.log (1 + (d.length : ℝ) / 1000)) ≤ 1 :=
      le_trans (div_le_self (le_of_lt hx0) hp1) hx1
    rw [min_eq_left hvle, max_eq_right (le_of_lt hvpos)]
  rw [hclamp doc1, hclamp doc2]
  exact div_lt_div_of_pos_left hx0 (by linarith [hpen doc1]) hpenlt

theorem lexical_length_penalty_ordering_witness :
    ((∀ t ∈ ["export".toList],
        countSub (lowerStr "export".toList) (lowerStr t) =
          countSub (lowerStr "export!!".toList) (lowerStr t)) ∧
      ("export".toList : Str).length < ("export!!".toList : Str).length ∧
      0 < (lexMetricsCore ⟨fun _ => true, fun _ _ => 0⟩ "export".toList ["export".toList]
        []).raw) ∧
    (compute_lexical_score ⟨fun _ => true, fun _ _ => 0⟩ "export!!".toList ["export".toList]
        []).1 <
      (compute_lexical_score ⟨fun _ => true, fun _ _ => 0⟩ "export".toList ["export".toList]
        []).1 := by
  have hcounts : ∀ t ∈ ["export".toList],
      countSub (lowerStr "export".toList) (lowerStr t) =
        countSub (lowerStr "export!!".toList) (lowerStr t) := by decide
  have hraw : 0 < (lexMetricsCore ⟨fun _ => true, fun _ _ => 0⟩ "export".toList
      ["export".toList] []).raw := by
    have hc : countSub (lowerStr "export".toList) (lowerStr "export".toList) = 1 := by decide
    simp only [lexMetricsCore, LEX_W_TERM, LEX_W_REGEX, LEX_TERM_CAP, LEX_REGEX_CAP,
      List.map_cons, List.map_nil, hc, List.sum_cons, List.sum_nil]
    norm_num
  exact ⟨⟨hcounts, by decide, hraw⟩,
    lexical_length_penalty_ordering ⟨fun _ => true, fun _ _ => 0⟩ "export".toList
      "export!!".toList ["export".toList] [] hcounts (by simp) (by decide) hraw⟩

/-! ## Claim theorems: lexical filter semantics (C6) -/

/-- C6: `_filters_satisfied` implements AND semantics over `must_terms` and
OR semantics over regex patterns (first conjunct); a candidate whose
document fails the check under an active filter set is skipped by the
result-building step (second conjunct); and every result `lexical_search`
returns was built from a fetched candidate that passed that step (third
conjunct), so failing candidates are excluded even when the broad fallback
fetch returned them. -/
theorem lexical_filter_semantics (eng : RegexEngine) :
    (∀ (doc : Str) (terms pats : List Str),
        filters_satisfied (lexMetricsCore eng doc terms pats) terms pats = true ↔
          ((∀ t ∈ terms, 0 < countSub (lowerStr doc) (lowerStr t)) ∧
            (pats = [] ∨ ∃ p ∈ pats, 0 < eng.count p doc))) ∧
    (∀ (terms pats : List Str) (pl : Option Str) (cand : LexCand),
        (terms ≠ [] ∨ pats ≠ []) →
        filters_satisfied (lexMetricsCore eng (cand.doc.getD []) terms pats) terms pats = false →
        lexBuildResult eng terms pats pl cand = none) ∧
    (∀ (get : Option WhereDoc → ℤ → List LexCand) (mt rg : List Str)
        (pathLike : Option Str) (k : ℤ) (r : LexResult),
        r ∈ lexical_search eng get mt rg pathLike k →
        ∃ cand ∈ lexicalFetch get (sanitize_list mt) ((sanitize_list rg).filter eng.valid)
            (match pathLike with
              | none => none
              | some s => if s.isEmpty then none else some (pyStrip s)) k,
          ∃ full, lexBuildResult eng (sanitize_list mt) ((sanitize_list rg).filter eng.valid)
              (match pathLike with
                | none => none
                | some s => if s.isEmpty then none else some (pyStrip s)) cand = some full ∧
            r = full.res) := by
  refine ⟨filters_satisfied_iff eng, ?_, ?_⟩
  · intro terms pats pl cand hact hfail
    unfold lexBuildResult
    by_cases hskip : (match pl with | some s => !s.isEmpty | none => false) = true ∧
        cand.source_path.isSome ∧
        (match pl, cand.source_path with
          | some plv, some sp =>
            if plv.isEmpty then false else decide (lowerStr plv <:+: lowerStr sp)
          | _, _ => false) = false
    · rw [if_pos hskip]
    · rw [if_neg hskip]
      dsimp only
      rw [compute_lexical_score_active eng (cand.doc.getD []) terms pats hact]
      rw [if_pos ⟨hact, hfail⟩]
  · intro get mt rg pathLike k r hr
    unfold lexical_search at hr
    by_cases hk : k ≤ 0
    · rw [if_pos hk] at hr
      simp at hr
    · rw [if_neg hk] at hr
      dsimp only at hr
      by_cases hguard : sanitize_list mt = [] ∧ (sanitize_list rg).filter eng.valid = [] ∧
          (match pathLike with
            | none => none
            | some s => if s.isEmpty then none else some (pyStrip s)).getD [] = []
      · rw [if_pos hguard] at hr
        simp at hr
      · rw [if_neg hguard] at hr
        obtain ⟨full, hfullmem, hfr⟩ := List.mem_map.mp hr
        have hsorted := List.mem_of_mem_take hfullmem
        obtain ⟨cand, hcand, hbuild⟩ :=
          List.mem_filterMap.mp ((List.perm_insertionSort lexBefore _).mem_iff.mp hsorted)
        exact ⟨cand, hcand, full, hbuild, hfr.symm⟩

theorem lexical_filter_semantics_witness :
    lexBuildResult ⟨fun _ => true, fun _ _ => 0⟩ [['a']] [] none
      ⟨['c'], some ['x'], none, none, none, none⟩ = none :=
  (lexical_filter_semantics ⟨fun _ => true, fun _ _ => 0⟩).2.1 [['a']] [] none
    ⟨['c'], some ['x'], none, none, none, none⟩ (Or.inl (by decide)) (by decide)
